import Mathlib

/-!
Verification of the thenewboston-node blockchain storage layer.

The Lean definitions below are a shallow embedding of the Python sources:

* `thenewboston_node/business_logic/blockchain/file_blockchain.py`
  (filename construction/parsing, `persist_block`, block/blockchain-state
  iteration and lookup),
* `thenewboston_node/business_logic/storages/file_system.py`
  (`FileSystemStorage`: save/append/load/finalize, compression selection,
  finalization checks),
* `thenewboston_node/business_logic/blockchain/base/network.py`
  (`yield_nodes`),
* `thenewboston_node/business_logic/models/mixins/serializable.py` and
  `thenewboston_node/business_logic/models/blockchain_state_message.py`
  (dict-level serialization and deserialization).

Bytes are modelled as `List Nat`, file systems as association lists from
path strings to file entries, and the msgpack record stream of a block
chunk as the list of the decoded records.
-/

/-! ### Decimal strings: Python `str(n)` and `str.zfill` -/

/-- `Char.ofNat (48 + d)`: the ASCII digit for `d < 10`, as produced by
Python's decimal formatting of a single digit. -/
def digitChar (d : Nat) : Char := Char.ofNat (48 + d)

/-- Fueled helper computing the decimal digit characters of `n`, most
significant first (structural recursion on the fuel so that concrete
values reduce in the kernel). -/
def natDigitsAux : Nat → Nat → List Char
  | 0, _ => []
  | fuel + 1, n =>
    if n < 10 then [digitChar n]
    else natDigitsAux fuel (n / 10) ++ [digitChar (n % 10)]

/-- The decimal digit characters of `n`, most significant first: the
characters of Python `str(n)` for a nonnegative integer. -/
def natDigits (n : Nat) : List Char := natDigitsAux (n + 1) n

/-- Python `str(n)` for a natural number. -/
def natStr (n : Nat) : String := ⟨natDigits n⟩

/-- Python `str.zfill` on a character list: left-pad with `'0'` to width
`w` (no sign handling is needed; the inputs used here never start with a
sign character). -/
def zfillChars (w : Nat) (cs : List Char) : List Char :=
  List.replicate (w - cs.length) '0' ++ cs

/-- Python `str.zfill` on strings. -/
def zfill (w : Nat) (s : String) : String := ⟨zfillChars w s.data⟩

/-- Left inverse of decimal formatting: fold the digit characters back
into a number (`'0'`-padding on the left is absorbed). -/
def digitsToNat (cs : List Char) : Nat :=
  cs.foldl (fun acc c => acc * 10 + (c.toNat - 48)) 0

/-! ### Filename construction (file_blockchain.py) -/

/-- `ORDER_OF_BLOCKCHAIN_STATE_FILE` from file_blockchain.py. -/
def ORDER_OF_BLOCKCHAIN_STATE_FILE : Nat := 10

/-- `ORDER_OF_BLOCK` from file_blockchain.py. -/
def ORDER_OF_BLOCK : Nat := 20

/-- `LAST_BLOCK_NUMBER_NONE_SENTINEL` from file_blockchain.py. -/
def LAST_BLOCK_NUMBER_NONE_SENTINEL : String := "!"

/-- `make_blockchain_state_filename` from file_blockchain.py:
`('!' if last_block_number is None else str(last_block_number)).zfill(10)`
followed by `'-arf.msgpack'`. -/
def make_blockchain_state_filename (lastBlockNumber : Option Nat) : String :=
  zfill ORDER_OF_BLOCKCHAIN_STATE_FILE
      (match lastBlockNumber with
        | none => LAST_BLOCK_NUMBER_NONE_SENTINEL
        | some n => natStr n) ++
    "-arf.msgpack"

/-- `make_block_chunk_filename` from file_blockchain.py:
`f"{str(start).zfill(20)}-{str(end).zfill(20)}-block-chunk.msgpack"`. -/
def make_block_chunk_filename (start endBlock : Nat) : String :=
  zfill ORDER_OF_BLOCK (natStr start) ++ "-" ++ zfill ORDER_OF_BLOCK (natStr endBlock) ++
    "-block-chunk.msgpack"

/-! ### Filename parsing (file_blockchain.py `get_block_chunk_filename_meta`)

The regular expression is
`^(\d+)-(\d+)-block-chunk\.msgpack(?:|\.(gz|bz2|xz))$` followed by
`assert start <= end`.  Since the character after each `\d+` group is a
dash, greedy matching of `\d+` coincides with taking the maximal digit
prefix. -/

/-- Decimal digit test used by the `\d` character class. -/
def isDigitChar (c : Char) : Bool := decide ('0' ≤ c ∧ c ≤ '9')

/-- The fixed names of the compression functions: the keys of
`COMPRESSION_FUNCTIONS` / `DECOMPRESSION_FUNCTIONS` in file_system.py. -/
def compressionNames : List String := ["gz", "bz2", "xz"]

/-- `get_block_chunk_filename_meta` from file_blockchain.py restricted to
the `(start, end)` groups: parse `(\d+)-(\d+)-block-chunk.msgpack` with an
optional compression suffix; `none` on a non-match.  The source `assert
start <= end` is modelled as a parse failure. -/
def get_block_chunk_filename_meta (s : String) : Option (Nat × Nat) :=
  let cs := s.data
  let ds1 := cs.takeWhile isDigitChar
  let rest1 := cs.dropWhile isDigitChar
  if ds1.isEmpty then none
  else if rest1.head? ≠ some '-' then none
  else
    let rest2 := rest1.tail
    let ds2 := rest2.takeWhile isDigitChar
    let rest3 := rest2.dropWhile isDigitChar
    if ds2.isEmpty then none
    else if rest3 = "-block-chunk.msgpack".data ∨
        compressionNames.any (fun c => rest3 = ("-block-chunk.msgpack." ++ c).data) then
      if digitsToNat ds1 ≤ digitsToNat ds2 then some (digitsToNat ds1, digitsToNat ds2)
      else none
    else none

/-! ### FileSystemStorage model (file_system.py)

A file system is an association list from path strings to file entries
(content bytes plus a writable bit standing for the write-permission
bits).  Path resolution (`_get_absolute_path`, the fan-out rewrite of
`PathOptimizedFileSystemStorage`) is identity in this model: paths are
the logical relative paths.

A `Compressor` bundles a compression-suffix name with its compression and
decompression functions.  In the source the storage is configured with a
tuple of names indexing the global `COMPRESSION_FUNCTIONS` /
`DECOMPRESSION_FUNCTIONS` dicts; here the configured list `cfg` carries
the functions directly and the global table `K` (used by `load` and
`is_finalized`, which always probe every known suffix) is a separate
parameter. -/

/-- A stored file: content bytes and whether any write-permission bit is
set. -/
structure FsFile where
  content : List Nat
  writable : Bool
deriving DecidableEq

/-- A compression codec: suffix name, compression and decompression
functions (entries of `COMPRESSION_FUNCTIONS`/`DECOMPRESSION_FUNCTIONS`
in file_system.py). -/
structure Compressor where
  name : String
  comp : List Nat → List Nat
  decomp : List Nat → List Nat

/-- The file-system state: an association list from paths to files. -/
structure FS where
  files : List (String × FsFile)
deriving DecidableEq

namespace FileSystemStorage

/-- Look up the file stored at `p` (first matching entry). -/
def fsLookup (fs : FS) (p : String) : Option FsFile :=
  (fs.files.find? (fun e => e.1 == p)).map (·.2)

/-- `os.path.exists`. -/
def fsExists (fs : FS) (p : String) : Bool := (fsLookup fs p).isSome

/-- Store `f` at `p`: replace the existing entry, else append a new one. -/
def fsSet (fs : FS) (p : String) (f : FsFile) : FS :=
  if fs.files.any (fun e => e.1 == p) then
    ⟨fs.files.map (fun e => if e.1 == p then (e.1, f) else e)⟩
  else ⟨fs.files ++ [(p, f)]⟩

/-- `os.remove`. -/
def fsRemove (fs : FS) (p : String) : FS :=
  ⟨fs.files.filter (fun e => !(e.1 == p))⟩

/-- `exist_compressed_file` from file_system.py: some known compression
suffix of `p` names an existing file. -/
def exist_compressed_file (K : List Compressor) (fs : FS) (p : String) : Bool :=
  K.any (fun c => fsExists fs (p ++ "." ++ c.name))

/-- `has_write_permissions` from file_system.py. -/
def has_write_permissions (f : FsFile) : Bool := f.writable

/-- `FileSystemStorage._is_finalized`: a compressed sibling exists, or the
raw file exists without write permissions. -/
def is_finalized (K : List Compressor) (fs : FS) (p : String) : Bool :=
  exist_compressed_file K fs p ||
    (match fsLookup fs p with
      | some f => !has_write_permissions f
      | none => false)

/-- Errors surfaced by the storage model. -/
inductive FsErr
  | finalizedFileWrite
  | missingFile
deriving DecidableEq

/-- The two open modes used by `_persist` (`'wb'` and `'ab'`). -/
inductive WriteMode
  | overwrite
  | append
deriving DecidableEq

/-- `FileSystemStorage._write_file`: refuse to touch a finalized target,
else write atomically (overwrite, or copy-then-append). -/
def write_file (K : List Compressor) (fs : FS) (p : String) (data : List Nat) (mode : WriteMode) :
    Except FsErr FS :=
  if is_finalized K fs p then .error .finalizedFileWrite
  else
    match mode with
    | .overwrite => .ok (fsSet fs p ⟨data, true⟩)
    | .append =>
      let old := match fsLookup fs p with
        | some f => f.content
        | none => []
      .ok (fsSet fs p ⟨old ++ data, true⟩)

/-- `drop_write_permissions` from file_system.py (no-op on a missing
path; in the source that would raise, but every call site passes an
existing path). -/
def drop_write_permissions (fs : FS) (p : String) : FS :=
  ⟨fs.files.map (fun e => if e.1 == p then (e.1, ⟨e.2.content, false⟩) else e)⟩

/-- The best-compression fold inside `FileSystemStorage._compress`:
starting from the raw file, each configured compressor replaces the
running best exactly when its output is strictly smaller. -/
def pickBest (p : String) (raw : List Nat) (cfg : List Compressor) : String × List Nat :=
  cfg.foldl
    (fun best c =>
      if (c.comp raw).length < best.2.length then (p ++ "." ++ c.name, c.comp raw) else best)
    (p, raw)

/-- `FileSystemStorage._compress`: no-op without configured compressors;
otherwise read the raw bytes, pick the best strictly-smaller compressed
form, and if one exists write it under the suffixed name and remove the
raw file.  Returns the final filename. -/
def compress (K : List Compressor) (cfg : List Compressor) (fs : FS) (p : String) :
    Except FsErr (FS × String) :=
  if cfg.isEmpty then .ok (fs, p)
  else
    match fsLookup fs p with
    | none => .error .missingFile
    | some f =>
      let best := pickBest p f.content cfg
      if best.1 = p then .ok (fs, p)
      else
        match write_file K fs best.1 best.2 .overwrite with
        | .error e => .error e
        | .ok fs₁ => .ok (fsRemove fs₁ p, best.1)

/-- `FileSystemStorage._finalize`: compress, then drop write permissions
of the resulting file. -/
def finalize (K : List Compressor) (cfg : List Compressor) (fs : FS) (p : String) :
    Except FsErr FS :=
  match compress K cfg fs p with
  | .error e => .error e
  | .ok (fs₁, newName) => .ok (drop_write_permissions fs₁ newName)

/-- `FileSystemStorage._persist`: write, then finalize when requested. -/
def persist (K : List Compressor) (cfg : List Compressor) (fs : FS) (p : String)
    (data : List Nat) (mode : WriteMode) (isFinal : Bool) : Except FsErr FS :=
  match write_file K fs p data mode with
  | .error e => .error e
  | .ok fs₁ => if isFinal then finalize K cfg fs₁ p else .ok fs₁

/-- `FileSystemStorage.save`. -/
def save (K : List Compressor) (cfg : List Compressor) (fs : FS) (p : String)
    (data : List Nat) (isFinal : Bool) : Except FsErr FS :=
  persist K cfg fs p data .overwrite isFinal

/-- `FileSystemStorage.append`. -/
def append (K : List Compressor) (cfg : List Compressor) (fs : FS) (p : String)
    (data : List Nat) (isFinal : Bool) : Except FsErr FS :=
  persist K cfg fs p data .append isFinal

/-- Helper of `FileSystemStorage.load`: try each known compression suffix
in table order, decompress on a hit, else read the raw path. -/
def loadAux (fs : FS) (p : String) : List Compressor → Except FsErr (List Nat)
  | [] =>
    match fsLookup fs p with
    | some f => .ok f.content
    | none => .error .missingFile
  | c :: rest =>
    match fsLookup fs (p ++ "." ++ c.name) with
    | some f => .ok (c.decomp f.content)
    | none => loadAux fs p rest

/-- `FileSystemStorage.load`. -/
def load (K : List Compressor) (fs : FS) (p : String) : Except FsErr (List Nat) :=
  loadAux fs p K

/-- A `save`/`append` call to the fixed path `p` (claim C3). -/
inductive WriteOp
  | save (data : List Nat) (isFinal : Bool)
  | append (data : List Nat) (isFinal : Bool)

/-- Run one `save`/`append` call against `p`; a raised
`FinalizedFileWriteError` leaves the state unchanged. -/
def runWriteOp (K : List Compressor) (cfg : List Compressor) (p : String) (fs : FS)
    (op : WriteOp) : FS :=
  match op with
  | .save d f =>
    match save K cfg fs p d f with
    | .ok fs' => fs'
    | .error _ => fs
  | .append d f =>
    match append K cfg fs p d f with
    | .ok fs' => fs'
    | .error _ => fs

/-- `strip_compression_extension` from file_system.py: drop the first
matching known compression suffix. -/
def strip_compression_extension (filename : String) : List Compressor → String
  | [] => filename
  | c :: rest =>
    if filename.endsWith ("." ++ c.name) then
      filename.dropRight (c.name.length + 1)
    else strip_compression_extension filename rest

end FileSystemStorage

/-! ### Blockchain-state store (file_blockchain.py, claims C9)

The decoded blockchain state is an abstract type `σ` with an abstract
decoder (`BlockchainState.from_messagepack`); the claims about this layer
concern which files the states are read from, not their contents. -/

namespace FileBlockchain

/-- Lookup in the `blockchain_states_cache` (keyed by file path). -/
def stateCacheGet {σ : Type} (cache : List (String × σ)) (p : String) : Option σ :=
  (cache.find? (fun e => e.1 == p)).map (·.2)

/-- `persist_blockchain_state`: save the encoded state under
`make_blockchain_state_filename(last_block_number)` with `is_final=True`. -/
def persist_blockchain_state (K cfg : List Compressor) (fs : FS)
    (lastBlockNumber : Option Nat) (data : List Nat) : Except FileSystemStorage.FsErr FS :=
  FileSystemStorage.save K cfg fs (make_blockchain_state_filename lastBlockNumber) data true

/-- `_load_blockchain_states`: return the cached state, else assert the
file is finalized (assertion failure modelled as `none`), load, decode,
and insert into the cache. -/
def load_blockchain_states {σ : Type} (decode : List Nat → σ) (K : List Compressor)
    (fs : FS) (cache : List (String × σ)) (p : String) :
    Option (σ × List (String × σ)) :=
  match stateCacheGet cache p with
  | some v => some (v, cache)
  | none =>
    if FileSystemStorage.is_finalized K fs p then
      match FileSystemStorage.load K fs p with
      | .ok bytes => some (decode bytes, (p, decode bytes) :: cache)
      | .error _ => none
    else none

/-- Modelled from the spec: `PathOptimizedFileSystemStorage.list_directory`
is not under src/.  Per spec section 4.2 it lazily yields the stored paths
with compression suffixes stripped, recursing through the fan-out
directories, sorted in the requested direction (section 4.3: lexicographic
listing order equals snapshot/block order). -/
def list_directory (K : List Compressor) (fs : FS) (ascending : Bool) : List String :=
  let names :=
    (fs.files.map (fun e => FileSystemStorage.strip_compression_extension e.1 K)).insertionSort
      (· ≤ ·)
  if ascending then names else names.reverse

/-- `_yield_blockchain_states` materialized over a path list, threading
the cache (assertion failures propagate as `none`). -/
def yield_blockchain_states_go {σ : Type} (decode : List Nat → σ) (K : List Compressor)
    (fs : FS) : List String → List (String × σ) → Option (List σ × List (String × σ))
  | [], cache => some ([], cache)
  | p :: rest, cache =>
    match load_blockchain_states decode K fs cache p with
    | none => none
    | some (v, cache₁) =>
      match yield_blockchain_states_go decode K fs rest cache₁ with
      | none => none
      | some (vs, cache₂) => some (v :: vs, cache₂)

/-- `yield_blockchain_states` (`direction = 1`). -/
def yield_blockchain_states {σ : Type} (decode : List Nat → σ) (K : List Compressor)
    (fs : FS) (cache : List (String × σ)) : Option (List σ × List (String × σ)) :=
  yield_blockchain_states_go decode K fs (list_directory K fs true) cache

/-- `yield_blockchain_states_reversed` (`direction = -1`). -/
def yield_blockchain_states_reversed {σ : Type} (decode : List Nat → σ) (K : List Compressor)
    (fs : FS) (cache : List (String × σ)) : Option (List σ × List (String × σ)) :=
  yield_blockchain_states_go decode K fs (list_directory K fs false) cache

end FileBlockchain

/-! ### Block store (file_blockchain.py, claims C1, C6, C8)

A block is its number plus an opaque payload standing for the rest of the
record.  A chunk file's content is the list of its decoded block records
(the msgpack stream; appending a record is list append, matching the
streamable codec).  `finalize` only marks the name finalized: compression
and permission dropping do not change what `load` returns, and
`FinalizedFileWriteError` cannot fire on the reachable states of claim C6
(`persist_block` only ever appends to the open, never-finalized chunk);
the error path itself is verified against the byte-level model of claims
C3-C5. -/

/-- One block record (`Block`): its `message.block_number` plus an opaque
payload standing for the remaining fields. -/
structure Blk where
  number : Nat
  payload : Nat
deriving DecidableEq

/-- The block storage: chunk files with decoded contents, plus the set of
finalized names. -/
structure BlockStorage where
  files : List (String × List Blk)
  finalized : List String
deriving DecidableEq

namespace BlockStorage

/-- `storage.load`, decoded: the record list of the named chunk. -/
def lookup (st : BlockStorage) (name : String) : Option (List Blk) :=
  (st.files.find? (fun e => e.1 == name)).map (·.2)

/-- `storage.append(name, record)`: append one record to the chunk
(creating it when missing). -/
def appendFile (st : BlockStorage) (name : String) (b : Blk) : BlockStorage :=
  if st.files.any (fun e => e.1 == name) then
    { st with files := st.files.map (fun e => if e.1 == name then (e.1, e.2 ++ [b]) else e) }
  else { st with files := st.files ++ [(name, [b])] }

/-- `storage.move(src, dst)` (`os.rename`). -/
def moveFile (st : BlockStorage) (src dst : String) : BlockStorage :=
  { st with files := st.files.map (fun e => if e.1 == src then (dst, e.2) else e) }

/-- `storage.finalize(name)` at this abstraction level. -/
def finalizeFile (st : BlockStorage) (name : String) : BlockStorage :=
  { st with finalized := name :: st.finalized }

end BlockStorage

/-- The `blocks_cache` (LRU keyed by block number).  Eviction order is
irrelevant to the claims, which hold for every coherent cache content, so
insertion is plain shadowing. -/
abbrev BlkCache := List (Nat × Blk)

/-- `direction` (`1` / `-1`) in file_blockchain.py. -/
inductive Direction
  | forward
  | backward
deriving DecidableEq

/-- The integer value of a direction. -/
def Direction.val : Direction → Int
  | .forward => 1
  | .backward => -1

namespace FileBlockchain

/-- `blocks_cache.get(block_number)`. -/
def cacheGet (cache : BlkCache) (n : Nat) : Option Blk :=
  (cache.find? (fun e => e.1 == n)).map (·.2)

/-- `blocks_cache[block_number] = block`. -/
def cacheInsert (cache : BlkCache) (n : Nat) (b : Blk) : BlkCache :=
  (n, b) :: cache

/-- `persist_block` from file_blockchain.py. -/
def persist_block (st : BlockStorage) (blockChunkSize : Nat) (b : Blk) : BlockStorage :=
  let blockNumber := b.number
  let chunkNumber := blockNumber / blockChunkSize
  let offset := blockNumber % blockChunkSize
  let chunkBlockNumberStart := chunkNumber * blockChunkSize
  let appendEnd := if chunkBlockNumberStart = blockNumber then blockNumber else blockNumber - 1
  let appendFilename := make_block_chunk_filename chunkBlockNumberStart appendEnd
  let filename := make_block_chunk_filename chunkBlockNumberStart blockNumber
  let st₁ := st.appendFile appendFilename b
  let st₂ := if appendFilename ≠ filename then st₁.moveFile appendFilename filename else st₁
  if offset = blockChunkSize - 1 then st₂.finalizeFile filename else st₂

/-- `_yield_blocks_from_cache`, materialized over the walked number list:
yield consecutive cache hits, stop at the first miss. -/
def yield_blocks_from_cache_go (cache : BlkCache) : List Nat → List Blk
  | [] => []
  | n :: rest =>
    match cacheGet cache n with
    | none => []
    | some b => b :: yield_blocks_from_cache_go cache rest

/-- `_yield_blocks_from_cache(start, end, direction)`. -/
def yield_blocks_from_cache (cache : BlkCache) (startBlockNumber endBlockNumber : Nat)
    (dir : Direction) : List Blk :=
  let range := List.range' startBlockNumber (endBlockNumber + 1 - startBlockNumber)
  yield_blocks_from_cache_go cache
    (match dir with
      | .forward => range
      | .backward => range.reverse)

/-- `_yield_blocks_from_file`: load the chunk, reverse the record stream
for direction `-1`, skip records beyond `start`, and cache every yielded
block.  A missing file (`OSError`) is `none`. -/
def yield_blocks_from_file (st : BlockStorage) (cache : BlkCache) (name : String)
    (dir : Direction) (start : Option Nat) : Option (List Blk × BlkCache) :=
  match st.lookup name with
  | none => none
  | some content =>
    let ordered := match dir with
      | .forward => content
      | .backward => content.reverse
    let selected := ordered.filter (fun b =>
      match start, dir with
      | none, _ => true
      | some v, .forward => decide (v ≤ b.number)
      | some v, .backward => decide (b.number ≤ v))
    some (selected, selected.foldl (fun c b => cacheInsert c b.number b) cache)

/-- `_yield_blocks_from_file_cached`: emit the consecutive cached run from
the direction end (the source asserts each cached block's number, modelled
as `none` on violation), then fall through to the file for the remaining
window. -/
def yield_blocks_from_file_cached (st : BlockStorage) (cache : BlkCache) (name : String)
    (dir : Direction) (start : Option Nat) : Option (List Blk × BlkCache) :=
  match get_block_chunk_filename_meta name with
  | none => some ([], cache)
  | some (fileStart, fileEnd) =>
    let cacheStart := match dir with
      | .forward => start.getD fileStart
      | .backward => fileStart
    let cacheEnd := match dir with
      | .forward => fileEnd
      | .backward => start.getD fileEnd
    let first : Nat := match dir with
      | .forward => cacheStart
      | .backward => cacheEnd
    let cached := yield_blocks_from_cache cache cacheStart cacheEnd dir
    let ns := match dir with
      | .forward => List.range' cacheStart (cacheEnd + 1 - cacheStart)
      | .backward => (List.range' cacheStart (cacheEnd + 1 - cacheStart)).reverse
    if cached.map Blk.number = ns.take cached.length then
      let next : Int := (first : Int) + dir.val * cached.length
      if (fileStart : Int) ≤ next ∧ next ≤ (fileEnd : Int) then
        match yield_blocks_from_file st cache name dir (some next.toNat) with
        | none => none
        | some (fileBlocks, cache') => some (cached ++ fileBlocks, cache')
      else some (cached, cache)
    else none

/-- Key for sorting chunk filenames: the parsed `(start, end)` meta. -/
def chunkKey (name : String) : Nat × Nat := (get_block_chunk_filename_meta name).getD (0, 0)

/-- Listing order of chunk filenames: by parsed meta, lexicographically. -/
def chunkNameLe (a b : String) : Prop :=
  (chunkKey a).1 < (chunkKey b).1 ∨
    ((chunkKey a).1 = (chunkKey b).1 ∧ (chunkKey a).2 ≤ (chunkKey b).2)

instance : DecidableRel chunkNameLe := fun a b => by
  unfold chunkNameLe
  infer_instance

instance : IsTotal String chunkNameLe :=
  ⟨by
    intro a b
    unfold chunkNameLe
    omega⟩

instance : IsTrans String chunkNameLe :=
  ⟨by
    intro a b c
    unfold chunkNameLe
    omega⟩

/-- Modelled from the spec: `_list_block_directory` delegates to
`PathOptimizedFileSystemStorage.list_directory`, which is not under src/.
Per spec sections 4.2/4.3 it yields the stored chunk paths sorted in the
requested direction, lexicographic filename order coinciding with parsed
block order for the zero-padded names. -/
def list_block_directory (st : BlockStorage) (dir : Direction) : List String :=
  let names := (st.files.map Prod.fst).insertionSort chunkNameLe
  match dir with
  | .forward => names
  | .backward => names.reverse

/-- `_yield_blocks(direction)`, materialized: concatenate the per-chunk
yields in listing order, threading the cache. -/
def yield_chunks (st : BlockStorage) (dir : Direction) :
    List String → BlkCache → Option (List Blk × BlkCache)
  | [], cache => some ([], cache)
  | nm :: rest, cache =>
    match yield_blocks_from_file_cached st cache nm dir none with
    | none => none
    | some (bs₁, cache₁) =>
      match yield_chunks st dir rest cache₁ with
      | none => none
      | some (bs₂, cache₂) => some (bs₁ ++ bs₂, cache₂)

/-- `yield_blocks`. -/
def yield_blocks (st : BlockStorage) (cache : BlkCache) : Option (List Blk × BlkCache) :=
  yield_chunks st .forward (list_block_directory st .forward) cache

/-- `yield_blocks_reversed`. -/
def yield_blocks_reversed (st : BlockStorage) (cache : BlkCache) :
    Option (List Blk × BlkCache) :=
  yield_chunks st .backward (list_block_directory st .backward) cache

/-- `yield_blocks_from(block_number)`, materialized: skip chunks whose
parsed end is below the block number (and unparsable names, with a
warning), start emission at `max(chunk_start, block_number)`. -/
def yield_blocks_from_chunks (st : BlockStorage) (n : Nat) :
    List String → BlkCache → Option (List Blk × BlkCache)
  | [], cache => some ([], cache)
  | nm :: rest, cache =>
    match get_block_chunk_filename_meta nm with
    | none => yield_blocks_from_chunks st n rest cache
    | some meta =>
      if meta.2 < n then yield_blocks_from_chunks st n rest cache
      else
        match yield_blocks_from_file_cached st cache nm .forward (some (max meta.1 n)) with
        | none => none
        | some (bs₁, cache₁) =>
          match yield_blocks_from_chunks st n rest cache₁ with
          | none => none
          | some (bs₂, cache₂) => some (bs₁ ++ bs₂, cache₂)

/-- `yield_blocks_from`. -/
def yield_blocks_from (st : BlockStorage) (cache : BlkCache) (n : Nat) :
    Option (List Blk × BlkCache) :=
  yield_blocks_from_chunks st n (list_block_directory st .forward) cache

/-- `get_block_by_number`: the cached block, else the first block of
`yield_blocks_from(block_number)` (`None` when exhausted).  The generator
is materialized; on the coherent states considered here no assertion
fires, so taking the head of the materialized list agrees with the lazy
`next()`. -/
def get_block_by_number (st : BlockStorage) (cache : BlkCache) (n : Nat) : Option Blk :=
  match cacheGet cache n with
  | some b => some b
  | none =>
    match yield_blocks_from st cache n with
    | none => none
    | some (bs, _) => bs.head?

/-- Modelled from the spec: `BlockchainBase.add_block` (the base class is
not under src/) validates the next dense block number and calls
`persist_block`; a store reachable by a sequence of `add_block` calls is
the fold of `persist_block` over blocks numbered `0, 1, 2, …`. -/
def chain_storage (s : Nat) (bs : List Blk) : BlockStorage :=
  bs.foldl (fun st b => persist_block st s b) ⟨[], []⟩

/-- The chunk files determined by a sequence of persisted blocks: chunk
`i` holds the blocks `i*s … min((i+1)*s, |bs|) - 1`. -/
def expectedFiles (s : Nat) (bs : List Blk) : List (String × List Blk) :=
  (List.range ((bs.length + s - 1) / s)).map (fun i =>
    (make_block_chunk_filename (i * s) (min ((i + 1) * s) bs.length - 1),
      (bs.drop (i * s)).take s))

/-- The block stored at index `k` (total helper for stating cache runs). -/
def blkAt (bs : List Blk) (k : Nat) : Blk := (bs.get? k).getD ⟨0, 0⟩

/-- The blocks carry the dense numbers `0, 1, 2, …` (established by
`add_block` validation). -/
def SeqNumbered (bs : List Blk) : Prop :=
  ∀ i (h : i < bs.length), (bs.get ⟨i, h⟩).number = i

/-- Every cache entry holds the stored block of its key (all LRU contents
arising from `add_block` inserts and read-path fills are of this form). -/
def CacheCoherent (bs : List Blk) (cache : BlkCache) : Prop :=
  ∀ e ∈ cache, bs.get? e.1 = some e.2

end FileBlockchain

/-! ### Models for claims C7 and C10

The model dataclasses (`Node`, `AccountState`, `Block`, and the
`BlockchainStateMessage` fields) are not under src/ and are modelled from
the spec (section 3): each dataclass is a record; optional fields are
`Option`s.  A serialized dict with a fixed key schema is modelled as a
record of the same shape, where a `none` field stands for an absent key:
`serialize_to_dict(skip_none_values=True)` never emits a `None` value and
the generic `deserialize_from_dict` maps an absent optional key back to
`None`, so presence-of-key and `Option` agree.  The serialization
overrides of `BlockchainStateMessage` (balance-lock deletion and node
identifier popping/restoration) are translated from
models/blockchain_state_message.py, and the generic field-by-field walk
from models/mixins/serializable.py. -/

namespace Models

/-- Modelled from the spec: `Node` `{identifier, network_addresses,
fee_amount, fee_account}`; the identifier is an `Option` because the
serializer pops it and the deserializer restores it. -/
structure Node where
  identifier : Option String
  network_addresses : List String
  fee_amount : Nat
  fee_account : Option String
deriving DecidableEq

/-- Modelled from the spec: `primary_validator_schedule`
`{begin_block_number, end_block_number}`. -/
structure PrimaryValidatorSchedule where
  begin_block_number : Nat
  end_block_number : Nat
deriving DecidableEq

/-- Modelled from the spec: `AccountState` `{balance, balance_lock, node,
primary_validator_schedule}`. -/
structure AccountState where
  balance : Option Nat
  balance_lock : Option String
  node : Option Node
  primary_validator_schedule : Option PrimaryValidatorSchedule
deriving DecidableEq

/-- The serialized dict of a `Node` (same key schema; `none` = absent). -/
structure SerializedNode where
  identifier : Option String
  network_addresses : List String
  fee_amount : Nat
  fee_account : Option String
deriving DecidableEq

/-- The serialized dict of a `PrimaryValidatorSchedule`. -/
structure SerializedPrimaryValidatorSchedule where
  begin_block_number : Nat
  end_block_number : Nat
deriving DecidableEq

/-- The serialized dict of an `AccountState`. -/
structure SerializedAccountState where
  balance : Option Nat
  balance_lock : Option String
  node : Option SerializedNode
  primary_validator_schedule : Option SerializedPrimaryValidatorSchedule
deriving DecidableEq

/-- Generic mixin serialization of a `Node` (field-by-field; `None`
fields skipped). -/
def Node.serialize_to_dict (nd : Node) : SerializedNode :=
  ⟨nd.identifier, nd.network_addresses, nd.fee_amount, nd.fee_account⟩

/-- Generic mixin deserialization of a `Node` dict. -/
def Node.deserialize_from_dict (d : SerializedNode) : Node :=
  ⟨d.identifier, d.network_addresses, d.fee_amount, d.fee_account⟩

/-- Generic mixin serialization of a `PrimaryValidatorSchedule`. -/
def PrimaryValidatorSchedule.serialize_to_dict (p : PrimaryValidatorSchedule) :
    SerializedPrimaryValidatorSchedule :=
  ⟨p.begin_block_number, p.end_block_number⟩

/-- Generic mixin deserialization of a `PrimaryValidatorSchedule` dict. -/
def PrimaryValidatorSchedule.deserialize_from_dict
    (d : SerializedPrimaryValidatorSchedule) : PrimaryValidatorSchedule :=
  ⟨d.begin_block_number, d.end_block_number⟩

/-- Generic mixin serialization of an `AccountState` (nested
`SerializableMixin` values serialized recursively). -/
def AccountState.serialize_to_dict (st : AccountState) : SerializedAccountState :=
  ⟨st.balance, st.balance_lock, st.node.map Node.serialize_to_dict,
    st.primary_validator_schedule.map PrimaryValidatorSchedule.serialize_to_dict⟩

/-- Generic mixin deserialization of an `AccountState` dict. -/
def AccountState.deserialize_from_dict (d : SerializedAccountState) : AccountState :=
  ⟨d.balance, d.balance_lock, d.node.map Node.deserialize_from_dict,
    d.primary_validator_schedule.map PrimaryValidatorSchedule.deserialize_from_dict⟩

/-- Modelled from the spec: `BlockchainStateMessage` — the account-number
to account-state map (insertion-ordered, as a Python dict) plus the
optional scalar fields.  The message-level fields are listed in
models/blockchain_state_message.py. -/
structure BlockchainStateMessage where
  account_states : List (String × AccountState)
  last_block_number : Option Nat
  last_block_identifier : Option String
  last_block_timestamp : Option Nat
  next_block_identifier : Option String
deriving DecidableEq

/-- The serialized dict of a `BlockchainStateMessage`. -/
structure SerializedBlockchainStateMessage where
  account_states : List (String × SerializedAccountState)
  last_block_number : Option Nat
  last_block_identifier : Option String
  last_block_timestamp : Option Nat
  next_block_identifier : Option String
deriving DecidableEq

/-- `BlockchainStateMessage.serialize_to_dict`: the generic serialization
followed by the per-account-state fixups of
models/blockchain_state_message.py: delete `balance_lock` when it equals
the account number, and pop `identifier` from a present `node` dict
(popping from an absent or empty node dict changes nothing, matching the
falsy-dict guard). -/
def BlockchainStateMessage.serialize_to_dict (m : BlockchainStateMessage) :
    SerializedBlockchainStateMessage :=
  { account_states := m.account_states.map (fun e =>
      let d := e.2.serialize_to_dict
      let d₁ := if d.balance_lock = some e.1 then { d with balance_lock := none } else d
      let d₂ := match d₁.node with
        | none => d₁
        | some nd => { d₁ with node := some { nd with identifier := none } }
      (e.1, d₂)),
    last_block_number := m.last_block_number,
    last_block_identifier := m.last_block_identifier,
    last_block_timestamp := m.last_block_timestamp,
    next_block_identifier := m.next_block_identifier }

/-- `BlockchainStateMessage.deserialize_from_dict`: the generic
deserialization, replacing a `None` `node.identifier` with the account
number (and nothing else: a deleted `balance_lock` is not restored). -/
def BlockchainStateMessage.deserialize_from_dict
    (d : SerializedBlockchainStateMessage) : BlockchainStateMessage :=
  { account_states := d.account_states.map (fun e =>
      let st := AccountState.deserialize_from_dict e.2
      let st' := match st.node with
        | some nd =>
          if nd.identifier = none then
            { st with node := some { nd with identifier := some e.1 } }
          else st
        | none => st
      (e.1, st')),
    last_block_number := d.last_block_number,
    last_block_identifier := d.last_block_identifier,
    last_block_timestamp := d.last_block_timestamp,
    next_block_identifier := d.next_block_identifier }

/-- Modelled from the spec: `Block` `{block_number, timestamp,
signed_change_request, updated_account_states, hash, signature}`; the
change request is opaque here.  Blocks serialize through the generic
mixin only (no account-state fixups). -/
structure Block where
  block_number : Nat
  timestamp : Nat
  signed_change_request : Nat
  updated_account_states : List (String × AccountState)
  hash : Option String
  signature : Option String
deriving DecidableEq

/-- The serialized dict of a `Block`. -/
structure SerializedBlock where
  block_number : Nat
  timestamp : Nat
  signed_change_request : Nat
  updated_account_states : List (String × SerializedAccountState)
  hash : Option String
  signature : Option String
deriving DecidableEq

/-- Generic mixin serialization of a `Block`. -/
def Block.serialize_to_dict (b : Block) : SerializedBlock :=
  ⟨b.block_number, b.timestamp, b.signed_change_request,
    b.updated_account_states.map (fun e => (e.1, e.2.serialize_to_dict)),
    b.hash, b.signature⟩

/-- Generic mixin deserialization of a `Block` dict. -/
def Block.deserialize_from_dict (d : SerializedBlock) : Block :=
  ⟨d.block_number, d.timestamp, d.signed_change_request,
    d.updated_account_states.map (fun e => (e.1, AccountState.deserialize_from_dict e.2)),
    d.hash, d.signature⟩

end Models

/-! ### yield_nodes for claim C10 -/

namespace NetworkMixin

/-- `NetworkMixin.yield_nodes` from blockchain/base/network.py,
materialized over the account-state stream that `yield_account_states`
produces (the mixin defers that generator to the concrete blockchain, so
it is a parameter here), threading the `known_accounts` set: a state with
no node is skipped without marking the account known; a known account is
skipped; otherwise the account is marked known and its node yielded. -/
def yield_nodes_go : List String → List (String × Models.AccountState) → List Models.Node
  | _, [] => []
  | known, (account_number, account_state) :: rest =>
    match account_state.node with
    | none => yield_nodes_go known rest
    | some node =>
      if account_number ∈ known then yield_nodes_go known rest
      else node :: yield_nodes_go (account_number :: known) rest

/-- `yield_nodes` (the `known_accounts` set starts empty). -/
def yield_nodes (xs : List (String × Models.AccountState)) : List Models.Node :=
  yield_nodes_go [] xs

/-- The node-bearing entries of the account-state stream, in order. -/
def nodeBearing (xs : List (String × Models.AccountState)) :
    List (String × Models.Node) :=
  xs.filterMap (fun e => e.2.node.map (fun nd => (e.1, nd)))

/-- First-occurrence-per-account deduplication (the claim side of C10). -/
def dedupFirst (seen : List String) :
    List (String × Models.Node) → List (String × Models.Node)
  | [] => []
  | (k, v) :: rest =>
    if k ∈ seen then dedupFirst seen rest
    else (k, v) :: dedupFirst (k :: seen) rest

end NetworkMixin


/-! ### Basic digit lemmas -/

theorem natDigitsAux_congr : ∀ f g n, n < f → n < g → natDigitsAux f n = natDigitsAux g n := by
  intro f
  induction f with
  | zero => intro g n hf; omega
  | succ f ih =>
    intro g n hf hg
    cases g with
    | zero => omega
    | succ g =>
      simp only [natDigitsAux]
      by_cases h10 : n < 10
      · simp [h10]
      · simp only [h10, if_false]
        rw [ih g (n / 10) (by omega) (by omega)]

theorem natDigits_eq (n : Nat) :
    natDigits n = if n < 10 then [digitChar n] else natDigits (n / 10) ++ [digitChar (n % 10)] := by
  show natDigitsAux (n + 1) n = _
  simp only [natDigitsAux]
  by_cases h10 : n < 10
  · simp [h10]
  · simp only [h10, if_false]
    rw [natDigitsAux_congr n (n / 10 + 1) (n / 10) (by omega) (by omega)]
    rfl

theorem natDigits_ne_nil (n : Nat) : natDigits n ≠ [] := by
  rw [natDigits_eq]
  by_cases h10 : n < 10 <;> simp [h10]

theorem digitChar_isDigit (d : Nat) (h : d < 10) : isDigitChar (digitChar d) = true := by
  interval_cases d <;> decide

theorem natDigits_all_digits (n : Nat) : ∀ c ∈ natDigits n, isDigitChar c = true := by
  induction n using Nat.strong_induction_on with
  | _ n ih =>
    rw [natDigits_eq]
    by_cases h10 : n < 10
    · simp only [h10, if_true, List.mem_singleton]
      rintro c rfl
      exact digitChar_isDigit n h10
    · simp only [h10, if_false, List.mem_append, List.mem_singleton]
      rintro c (hc | rfl)
      · exact ih (n / 10) (by omega) c hc
      · exact digitChar_isDigit (n % 10) (by omega)

theorem digitChar_toNat (d : Nat) (h : d < 10) : (digitChar d).toNat = 48 + d := by
  interval_cases d <;> decide

theorem digitsToNat_append_singleton (cs : List Char) (c : Char) :
    digitsToNat (cs ++ [c]) = digitsToNat cs * 10 + (c.toNat - 48) := by
  simp [digitsToNat, List.foldl_append]

theorem digitsToNat_natDigits (n : Nat) : digitsToNat (natDigits n) = n := by
  induction n using Nat.strong_induction_on with
  | _ n ih =>
    rw [natDigits_eq]
    by_cases h10 : n < 10
    · simp only [h10, if_true]
      simp [digitsToNat, digitChar_toNat n h10]
    · simp only [h10, if_false]
      rw [digitsToNat_append_singleton, ih (n / 10) (by omega),
        digitChar_toNat (n % 10) (by omega)]
      omega

theorem digitsToNat_replicate_zero_append (k : Nat) (cs : List Char) :
    digitsToNat (List.replicate k '0' ++ cs) = digitsToNat cs := by
  induction k with
  | zero => rfl
  | succ k ih =>
    rw [List.replicate_succ, List.cons_append]
    exact ih

theorem digitsToNat_zfillChars (w : Nat) (cs : List Char) :
    digitsToNat (zfillChars w cs) = digitsToNat cs :=
  digitsToNat_replicate_zero_append _ _

theorem zfillChars_all_digits (w : Nat) (cs : List Char)
    (h : ∀ c ∈ cs, isDigitChar c = true) : ∀ c ∈ zfillChars w cs, isDigitChar c = true := by
  intro c hc
  rcases List.mem_append.mp hc with hc | hc
  · rw [List.eq_of_mem_replicate hc]; decide
  · exact h c hc

theorem natDigits_length_le (k n : Nat) (h : n < 10 ^ (k + 1)) :
    (natDigits n).length ≤ k + 1 := by
  induction k generalizing n with
  | zero =>
    rw [natDigits_eq]
    have h10 : n < 10 := by simpa using h
    simp [h10]
  | succ k ih =>
    rw [natDigits_eq]
    by_cases h10 : n < 10
    · simp [h10]
    · simp only [h10, if_false, List.length_append, List.length_singleton]
      have hdiv : n / 10 < 10 ^ (k + 1) := by
        rw [pow_succ] at h
        omega
      have := ih (n / 10) hdiv
      omega

theorem zfillChars_length (w : Nat) (cs : List Char) (h : cs.length ≤ w) :
    (zfillChars w cs).length = w := by
  simp [zfillChars]
  omega

/-! ### takeWhile / dropWhile decomposition -/

theorem takeWhile_append_stop (p : Char → Bool) (xs : List Char) (y : Char) (ys : List Char)
    (hx : ∀ c ∈ xs, p c = true) (hy : p y = false) :
    (xs ++ y :: ys).takeWhile p = xs := by
  induction xs with
  | nil => simp [List.takeWhile_cons, hy]
  | cons x xs ih =>
    have hpx : p x = true := hx x (by simp)
    simp only [List.cons_append, List.takeWhile_cons, hpx, if_true]
    rw [ih (fun c hc => hx c (by simp [hc]))]

theorem dropWhile_append_stop (p : Char → Bool) (xs : List Char) (y : Char) (ys : List Char)
    (hx : ∀ c ∈ xs, p c = true) (hy : p y = false) :
    (xs ++ y :: ys).dropWhile p = y :: ys := by
  induction xs with
  | nil => simp [List.dropWhile_cons, hy]
  | cons x xs ih =>
    have hpx : p x = true := hx x (by simp)
    simp only [List.cons_append, List.dropWhile_cons, hpx, if_true]
    exact ih (fun c hc => hx c (by simp [hc]))

/-! ### Chunk filename round-trip and injectivity -/

theorem make_block_chunk_filename_data (a b : Nat) :
    (make_block_chunk_filename a b).data =
      zfillChars 20 (natDigits a) ++
        '-' :: (zfillChars 20 (natDigits b) ++ "-block-chunk.msgpack".data) := by
  show (zfill 20 (natStr a) ++ "-" ++ zfill 20 (natStr b) ++ "-block-chunk.msgpack").data = _
  rw [String.data_append, String.data_append, String.data_append]
  show (zfillChars 20 (natDigits a) ++ ['-']) ++ zfillChars 20 (natDigits b) ++
      "-block-chunk.msgpack".data = _
  simp

theorem zfillChars_natDigits_ne_nil (w n : Nat) : zfillChars w (natDigits n) ≠ [] := by
  intro h
  have := congrArg List.length h
  simp [zfillChars] at this
  exact natDigits_ne_nil n this.2

theorem zfillChars_natDigits_isEmpty (w n : Nat) :
    (zfillChars w (natDigits n)).isEmpty = false := by
  rcases hne : zfillChars w (natDigits n) with _ | ⟨c, cs⟩
  · exact absurd hne (zfillChars_natDigits_ne_nil w n)
  · rfl

theorem get_block_chunk_filename_meta_make (a b : Nat) (hab : a ≤ b) :
    get_block_chunk_filename_meta (make_block_chunk_filename a b) = some (a, b) := by
  have hda : ∀ c ∈ zfillChars 20 (natDigits a), isDigitChar c = true :=
    zfillChars_all_digits _ _ (natDigits_all_digits a)
  have hdb : ∀ c ∈ zfillChars 20 (natDigits b), isDigitChar c = true :=
    zfillChars_all_digits _ _ (natDigits_all_digits b)
  have hdash : isDigitChar '-' = false := by decide
  unfold get_block_chunk_filename_meta
  simp only [make_block_chunk_filename_data]
  simp only [takeWhile_append_stop _ _ _ _ hda hdash, dropWhile_append_stop _ _ _ _ hda hdash,
    zfillChars_natDigits_isEmpty, Bool.false_eq_true, if_false, List.head?_cons, ne_eq,
    Option.some.injEq, not_true_eq_false, List.tail_cons,
    takeWhile_append_stop _ _ _ _ hdb hdash, dropWhile_append_stop _ _ _ _ hdb hdash,
    digitsToNat_zfillChars, digitsToNat_natDigits, eq_self_iff_true, true_or, if_true, hab]

theorem make_block_chunk_filename_inj (s₁ e₁ s₂ e₂ : Nat) (h₁ : s₁ ≤ e₁) (h₂ : s₂ ≤ e₂)
    (h : make_block_chunk_filename s₁ e₁ = make_block_chunk_filename s₂ e₂) :
    s₁ = s₂ ∧ e₁ = e₂ := by
  have := (get_block_chunk_filename_meta_make s₁ e₁ h₁).symm.trans
    (h ▸ get_block_chunk_filename_meta_make s₂ e₂ h₂)
  simp at this
  exact this

/-! ### Blockchain-state filename shape and order (claim C2) -/

theorem make_blockchain_state_filename_none_data :
    (make_blockchain_state_filename none).data =
      List.replicate 9 '0' ++ '!' :: "-arf.msgpack".data := by
  show (zfill 10 "!" ++ "-arf.msgpack").data = _
  rw [String.data_append]
  show (List.replicate 9 '0' ++ ['!']) ++ "-arf.msgpack".data = _
  simp

theorem make_blockchain_state_filename_some_data (n : Nat) :
    (make_blockchain_state_filename (some n)).data =
      zfillChars 10 (natDigits n) ++ "-arf.msgpack".data := by
  show (zfill 10 (natStr n) ++ "-arf.msgpack").data = _
  rw [String.data_append]
  rfl

theorem lex_replicate_zero_bang (m : Nat) (bs t u : List Char) (hlen : bs.length = m + 1)
    (hd : ∀ c ∈ bs, isDigitChar c = true) :
    List.Lex (· < ·) (List.replicate m '0' ++ '!' :: t) (bs ++ u) := by
  induction m generalizing bs with
  | zero =>
    rcases bs with _ | ⟨c, cs⟩
    · simp at hlen
    rcases cs with _ | ⟨c', cs'⟩
    swap
    · simp at hlen
    have hdig : ('0' ≤ c ∧ c ≤ '9') := of_decide_eq_true (hd c (by simp))
    exact List.Lex.rel (lt_of_lt_of_le (by decide : '!' < '0') hdig.1)
  | succ m ih =>
    rcases bs with _ | ⟨c, cs⟩
    · simp at hlen
    have hdig : ('0' ≤ c ∧ c ≤ '9') := of_decide_eq_true (hd c (by simp))
    rw [List.replicate_succ, List.cons_append, List.cons_append]
    rcases eq_or_lt_of_le hdig.1 with heq | hlt
    · rw [← heq]
      exact List.Lex.cons
        (ih cs (by simpa using hlen) (fun c' hc' => hd c' (by simp [hc'])))
    · exact List.Lex.rel hlt

/-- C2: the genesis blockchain-state filename.  The spec claims the `'!'`
sentinel is padded on the left with `'!'`, producing
`'!!!!!!!!!!-arf.msgpack'`; the code pads with `'0'` (Python `str.zfill`),
producing `'000000000!-arf.msgpack'`. -/
theorem claim_c2_counterexample :
    make_blockchain_state_filename none = "000000000!-arf.msgpack" ∧
    make_blockchain_state_filename none ≠ "!!!!!!!!!!-arf.msgpack" := by
  constructor <;> decide

/-- C2 (amended): for the genesis blockchain state (`last_block_number =
None`), the snapshot filename is the none-sentinel `'!'` padded on the left
with `'0'` (Python `str.zfill`) to width 10, followed by `-arf.msgpack`,
i.e. `'000000000!-arf.msgpack'`; since `'!'` sorts before every decimal
digit, the genesis file still sorts before every digit-named snapshot
filename under lexicographic order. -/
theorem claim_c2_genesis_filename :
    make_blockchain_state_filename none = "000000000!-arf.msgpack" ∧
    ∀ n : Nat, n < 10 ^ 10 →
      make_blockchain_state_filename none < make_blockchain_state_filename (some n) := by
  refine ⟨by decide, fun n hn => ?_⟩
  rw [String.lt_iff_toList_lt]
  show List.Lex (· < ·) (make_blockchain_state_filename none).data
    (make_blockchain_state_filename (some n)).data
  rw [make_blockchain_state_filename_none_data, make_blockchain_state_filename_some_data]
  exact lex_replicate_zero_bang 9 _ _ _
    (zfillChars_length 10 (natDigits n) (natDigits_length_le 9 n hn))
    (zfillChars_all_digits _ _ (natDigits_all_digits n))

/-- C2 witness: the amended order statement at `n = 0`. -/
theorem claim_c2_genesis_filename_witness :
    (0 : Nat) < 10 ^ 10 ∧
      make_blockchain_state_filename none < make_blockchain_state_filename (some 0) :=
  ⟨by norm_num, claim_c2_genesis_filename.2 0 (by norm_num)⟩

/-! ### Association-list lemmas for the file-system state -/

theorem assoc_keyfix_fst {α : Type} (p : String) (f : α → α) (e : String × α) :
    (if e.1 == p then (e.1, f e.2) else e).1 = e.1 := by
  by_cases h : (e.1 == p) = true <;> simp [h]

theorem assoc_find?_map_keyfix {α : Type} (p q : String) (f : α → α) (l : List (String × α)) :
    (l.map (fun e => if e.1 == p then (e.1, f e.2) else e)).find? (fun e => e.1 == q) =
      (l.find? (fun e => e.1 == q)).map (fun e => if e.1 == p then (e.1, f e.2) else e) := by
  rw [List.find?_map]
  have hcomp : ((fun (e : String × α) => e.1 == q) ∘
      (fun e => if e.1 == p then (e.1, f e.2) else e)) = (fun e => e.1 == q) := by
    funext e
    show ((if e.1 == p then (e.1, f e.2) else e).1 == q) = (e.1 == q)
    rw [assoc_keyfix_fst]
  rw [hcomp]

namespace FileSystemStorage

theorem fsLookup_files (fs : FS) (q : String) :
    fsLookup fs q = (fs.files.find? (fun e => e.1 == q)).map (·.2) := rfl

theorem fsLookup_find?_key (fs : FS) (q : String) (e : String × FsFile)
    (h : fs.files.find? (fun e => e.1 == q) = some e) : e.1 = q := by
  have := List.find?_some h
  simpa using this

theorem fsLookup_fsSet (fs : FS) (p : String) (f : FsFile) (q : String) :
    fsLookup (fsSet fs p f) q = if q = p then some f else fsLookup fs q := by
  unfold fsSet
  by_cases hany : fs.files.any (fun e => e.1 == p) = true
  · rw [if_pos hany, fsLookup_files]
    show ((fs.files.map (fun e => if e.1 == p then (e.1, (fun _ => f) e.2) else e)).find?
      (fun e => e.1 == q)).map (·.2) = _
    rw [assoc_find?_map_keyfix p q (fun _ => f) fs.files]
    rcases hf : fs.files.find? (fun e => e.1 == q) with _ | ⟨e⟩
    · by_cases hqp : q = p
      · subst hqp
        rcases List.any_eq_true.mp hany with ⟨e, he, hpe⟩
        rw [List.find?_eq_none] at hf
        exact absurd hpe (hf e he)
      · rw [if_neg hqp, fsLookup_files, hf]
        rfl
    · have hkey : e.1 = q := fsLookup_find?_key fs q e hf
      by_cases hqp : q = p
      · subst hqp
        rw [hf, Option.map_some', Option.map_some', if_pos rfl]
        have hbeq : (e.1 == q) = true := by simp [hkey]
        simp [hbeq]
      · rw [hf, Option.map_some', Option.map_some', if_neg hqp, fsLookup_files, hf,
          Option.map_some']
        have hp : ¬ e.1 = p := fun h => hqp (hkey ▸ h ▸ rfl)
        simp [hp]
  · rw [if_neg hany, fsLookup_files]
    show ((fs.files ++ [(p, f)]).find? (fun e => e.1 == q)).map (·.2) = _
    rw [List.find?_append]
    have hnop : fs.files.find? (fun e => e.1 == p) = none := by
      rw [List.find?_eq_none]
      intro e he hc
      exact hany (List.any_eq_true.mpr ⟨e, he, hc⟩)
    by_cases hqp : q = p
    · subst hqp
      rw [hnop]
      simp
    · have h1 : ([(p, f)].find? (fun e => e.1 == q)) = none := by
        have hb : ((p, f).1 == q) = false := by
          simp only [beq_eq_false_iff_ne, ne_eq]
          exact fun h => hqp (h ▸ rfl)
        simp [List.find?_singleton, hb]
      rw [h1, if_neg hqp, fsLookup_files]
      rcases hf : fs.files.find? (fun e => e.1 == q) with _ | ⟨e⟩ <;> rw [hf] <;> rfl

theorem fsLookup_fsRemove (fs : FS) (p q : String) :
    fsLookup (fsRemove fs p) q = if q = p then none else fsLookup fs q := by
  unfold fsRemove
  rw [fsLookup_files, fsLookup_files]
  show ((fs.files.filter (fun e => !(e.1 == p))).find? (fun e => e.1 == q)).map (·.2) = _
  induction fs.files with
  | nil => by_cases h : q = p <;> simp [h]
  | cons e l ih =>
    by_cases hep : (e.1 == p) = true
    · rw [List.filter_cons_of_neg (by simp [hep])]
      rw [ih]
      by_cases hqp : q = p
      · rw [if_pos hqp, if_pos hqp]
      · have hne : ¬ (e.1 == q) = true := by
          simp only [beq_iff_eq]
          intro h
          exact hqp ((by simpa using hep : e.1 = p) ▸ h ▸ rfl)
        rw [if_neg hqp, if_neg hqp,
          @List.find?_cons_of_neg _ (fun e => e.1 == q) e l hne]
    · rw [List.filter_cons_of_pos (by simp [hep])]
      by_cases heq : (e.1 == q) = true
      · have hqp : ¬ q = p := by
          intro h
          subst h
          exact hep heq
        rw [@List.find?_cons_of_pos _ (fun e => e.1 == q) e
            (l.filter (fun e => !(e.1 == p))) heq,
          @List.find?_cons_of_pos _ (fun e => e.1 == q) e l heq, if_neg hqp]
      · rw [@List.find?_cons_of_neg _ (fun e => e.1 == q) e
            (l.filter (fun e => !(e.1 == p))) heq,
          @List.find?_cons_of_neg _ (fun e => e.1 == q) e l heq]
        exact ih

theorem fsLookup_drop_write_permissions (fs : FS) (p q : String) :
    fsLookup (drop_write_permissions fs p) q =
      if q = p then (fsLookup fs q).map (fun f => ⟨f.content, false⟩) else fsLookup fs q := by
  unfold drop_write_permissions
  rw [fsLookup_files]
  show ((fs.files.map (fun e =>
    if e.1 == p then (e.1, (fun f => (⟨f.content, false⟩ : FsFile)) e.2) else e)).find?
      (fun e => e.1 == q)).map (·.2) = _
  rw [assoc_find?_map_keyfix p q (fun f => (⟨f.content, false⟩ : FsFile)) fs.files]
  rcases hf : fs.files.find? (fun e => e.1 == q) with _ | ⟨e⟩
  · by_cases hqp : q = p <;> rw [fsLookup_files, hf] <;> simp [hqp]
  · have hkey : e.1 = q := fsLookup_find?_key fs q e hf
    by_cases hqp : q = p
    · subst hqp
      rw [hf, Option.map_some', Option.map_some', if_pos rfl, fsLookup_files, hf,
        Option.map_some']
      have hbeq : (e.1 == q) = true := by simp [hkey]
      simp [hbeq]
    · rw [hf, Option.map_some', Option.map_some', if_neg hqp, fsLookup_files, hf,
        Option.map_some']
      have hp : ¬ e.1 = p := fun h => hqp (hkey ▸ h ▸ rfl)
      simp [hp]

end FileSystemStorage

/-! ### Claim C3: finalized files are immutable -/

namespace FileSystemStorage

theorem write_file_error_of_finalized (K : List Compressor) (fs : FS) (p : String)
    (d : List Nat) (mode : WriteMode) (h : is_finalized K fs p = true) :
    write_file K fs p d mode = .error .finalizedFileWrite := by
  unfold write_file
  rw [if_pos h]

theorem save_error_of_finalized (K cfg : List Compressor) (fs : FS) (p : String)
    (d : List Nat) (fin : Bool) (h : is_finalized K fs p = true) :
    save K cfg fs p d fin = .error .finalizedFileWrite := by
  unfold save persist
  rw [write_file_error_of_finalized K fs p d .overwrite h]

theorem append_error_of_finalized (K cfg : List Compressor) (fs : FS) (p : String)
    (d : List Nat) (fin : Bool) (h : is_finalized K fs p = true) :
    append K cfg fs p d fin = .error .finalizedFileWrite := by
  unfold append persist
  rw [write_file_error_of_finalized K fs p d .append h]

theorem runWriteOp_of_finalized (K cfg : List Compressor) (p : String) (fs : FS)
    (op : WriteOp) (h : is_finalized K fs p = true) :
    runWriteOp K cfg p fs op = fs := by
  rcases op with ⟨d, fin⟩ | ⟨d, fin⟩
  · show (match save K cfg fs p d fin with
      | .ok fs' => fs'
      | .error _ => fs) = fs
    rw [save_error_of_finalized K cfg fs p d fin h]
  · show (match append K cfg fs p d fin with
      | .ok fs' => fs'
      | .error _ => fs) = fs
    rw [append_error_of_finalized K cfg fs p d fin h]

end FileSystemStorage

open FileSystemStorage in
/-- C3: once `is_finalized(p)` holds, any sequence of subsequent
`save(p, …)` / `append(p, …)` calls leaves the stored state unchanged, and
each such call raises `FinalizedFileWriteError` (so in particular the
stored content of `p` is unchanged by every failed call). -/
theorem claim_c3_finalized_immutable (K cfg : List Compressor) (p : String) (fs : FS)
    (h : is_finalized K fs p = true) (ops : List WriteOp) :
    ops.foldl (runWriteOp K cfg p) fs = fs ∧
    ∀ d fin,
      save K cfg (ops.foldl (runWriteOp K cfg p) fs) p d fin = .error .finalizedFileWrite ∧
      append K cfg (ops.foldl (runWriteOp K cfg p) fs) p d fin = .error .finalizedFileWrite := by
  have hfold : ops.foldl (runWriteOp K cfg p) fs = fs := by
    induction ops with
    | nil => rfl
    | cons op ops ih =>
      rw [List.foldl_cons, runWriteOp_of_finalized K cfg p fs op h]
      exact ih
  refine ⟨hfold, fun d fin => ?_⟩
  rw [hfold]
  exact ⟨save_error_of_finalized K cfg fs p d fin h,
    append_error_of_finalized K cfg fs p d fin h⟩

open FileSystemStorage in
/-- C3 witness: a finalized file (write permissions dropped), one
subsequent save and append both fail and the state is unchanged. -/
theorem claim_c3_finalized_immutable_witness :
    is_finalized [] ⟨[("a", ⟨[0], false⟩)]⟩ "a" = true ∧
    ([WriteOp.save [1] false, WriteOp.append [2] true].foldl (runWriteOp [] [] "a")
        ⟨[("a", ⟨[0], false⟩)]⟩ = ⟨[("a", ⟨[0], false⟩)]⟩) ∧
    save [] [] ⟨[("a", ⟨[0], false⟩)]⟩ "a" [9] true = .error .finalizedFileWrite := by
  have h := claim_c3_finalized_immutable [] [] "a" ⟨[("a", ⟨[0], false⟩)]⟩ (by decide)
    [WriteOp.save [1] false, WriteOp.append [2] true]
  refine ⟨by decide, h.1, ?_⟩
  have h2 := (h.2 [9] true).1
  rwa [h.1] at h2

/-! ### Claim C4: compression selection on finalize -/

theorem string_append_dot_assoc (p a : String) : p ++ "." ++ a = p ++ ("." ++ a) :=
  String.append_assoc p "." a

theorem string_dot_append_ne_empty (t : String) : ("." ++ t) ≠ "" := by
  intro h
  have hl := congrArg String.length h
  rw [String.length_append] at hl
  have h1 : ("." : String).length = 1 := rfl
  have h0 : ("" : String).length = 0 := rfl
  rw [h1, h0] at hl
  omega

theorem string_append_left_ne_empty (s t : String) (h : s ≠ "") : s ++ t ≠ "" := by
  intro hc
  apply h
  have hl := congrArg String.length hc
  rw [String.length_append] at hl
  have h0 : ("" : String).length = 0 := rfl
  rw [h0] at hl
  have hs : s.length = 0 := by omega
  cases s with
  | mk data =>
    rcases data with _ | ⟨c, cs⟩
    · rfl
    · exact absurd hs (by
        show ¬ (String.mk (c :: cs)).length = 0
        show ¬ (c :: cs).length = 0
        simp)

theorem string_suffixed_ne (p n : String) : ¬ (p ++ "." ++ n = p) := by
  intro h
  have hl := congrArg String.length h
  rw [String.length_append, String.length_append] at hl
  have h1 : ("." : String).length = 1 := rfl
  rw [h1] at hl
  omega

namespace FileSystemStorage

theorem pickBest_le (p : String) (raw : List Nat) (cfg : List Compressor) :
    ∀ acc : String × List Nat,
      ((cfg.foldl (fun best c =>
          if (c.comp raw).length < best.2.length then (p ++ "." ++ c.name, c.comp raw)
          else best) acc).2.length ≤ acc.2.length) ∧
      ∀ c ∈ cfg,
        ((cfg.foldl (fun best c =>
          if (c.comp raw).length < best.2.length then (p ++ "." ++ c.name, c.comp raw)
          else best) acc).2.length ≤ (c.comp raw).length) := by
  induction cfg with
  | nil =>
    intro acc
    exact ⟨le_refl _, by simp⟩
  | cons c cfg ih =>
    intro acc
    simp only [List.foldl_cons]
    rcases Nat.lt_or_ge (c.comp raw).length acc.2.length with hlt | hge
    · rw [if_pos hlt]
      refine ⟨le_trans (ih _).1 (le_of_lt hlt), fun c' hc' => ?_⟩
      rcases List.mem_cons.mp hc' with rfl | hc'
      · exact (ih _).1
      · exact (ih _).2 c' hc'
    · rw [if_neg (Nat.not_lt.mpr hge)]
      refine ⟨(ih acc).1, fun c' hc' => ?_⟩
      rcases List.mem_cons.mp hc' with rfl | hc'
      · exact le_trans (ih acc).1 hge
      · exact (ih acc).2 c' hc'

theorem pickBest_shape (p : String) (raw : List Nat) (cfg : List Compressor) :
    ∀ acc : String × List Nat,
      (cfg.foldl (fun best c =>
          if (c.comp raw).length < best.2.length then (p ++ "." ++ c.name, c.comp raw)
          else best) acc = acc) ∨
      ∃ c ∈ cfg,
        (cfg.foldl (fun best c =>
          if (c.comp raw).length < best.2.length then (p ++ "." ++ c.name, c.comp raw)
          else best) acc = (p ++ "." ++ c.name, c.comp raw)) ∧
        (c.comp raw).length < acc.2.length := by
  induction cfg with
  | nil =>
    intro acc
    exact Or.inl rfl
  | cons c cfg ih =>
    intro acc
    simp only [List.foldl_cons]
    rcases Nat.lt_or_ge (c.comp raw).length acc.2.length with hlt | hge
    · rw [if_pos hlt]
      rcases ih (p ++ "." ++ c.name, c.comp raw) with heq | ⟨c', hc', heq, hlen⟩
      · exact Or.inr ⟨c, List.mem_cons_self c cfg, heq, hlt⟩
      · exact Or.inr ⟨c', List.mem_cons_of_mem c hc', heq, lt_trans hlen hlt⟩
    · rw [if_neg (Nat.not_lt.mpr hge)]
      rcases ih acc with heq | ⟨c', hc', heq, hlen⟩
      · exact Or.inl heq
      · exact Or.inr ⟨c', List.mem_cons_of_mem c hc', heq, hlen⟩

theorem pickBest_of_no_winner (p : String) (raw : List Nat) (cfg : List Compressor)
    (h : ∀ c ∈ cfg, raw.length ≤ (c.comp raw).length) :
    pickBest p raw cfg = (p, raw) := by
  unfold pickBest
  rcases pickBest_shape p raw cfg (p, raw) with heq | ⟨c, hc, _, hlen⟩
  · exact heq
  · exact absurd hlen (Nat.not_lt.mpr (h c hc))

theorem pickBest_of_winner (p : String) (raw : List Nat) (cfg : List Compressor)
    (h : ∃ c ∈ cfg, (c.comp raw).length < raw.length) :
    ∃ c ∈ cfg, pickBest p raw cfg = (p ++ "." ++ c.name, c.comp raw) ∧
      (c.comp raw).length < raw.length ∧
      ∀ c' ∈ cfg, (c.comp raw).length ≤ (c'.comp raw).length := by
  rcases h with ⟨cw, hcw, hlt⟩
  rcases pickBest_shape p raw cfg (p, raw) with heq | ⟨c, hc, heq, hlen⟩
  · exfalso
    have hle := (pickBest_le p raw cfg (p, raw)).2 cw hcw
    rw [show (cfg.foldl (fun best c =>
        if (c.comp raw).length < best.2.length then (p ++ "." ++ c.name, c.comp raw)
        else best) (p, raw)) = (p, raw) from heq] at hle
    exact absurd (lt_of_lt_of_le hlt hle) (lt_irrefl _)
  · refine ⟨c, hc, heq, hlen, fun c' hc' => ?_⟩
    have hle := (pickBest_le p raw cfg (p, raw)).2 c' hc'
    rw [show (cfg.foldl (fun best c =>
        if (c.comp raw).length < best.2.length then (p ++ "." ++ c.name, c.comp raw)
        else best) (p, raw)) = (p ++ "." ++ c.name, c.comp raw) from heq] at hle
    exact hle

end FileSystemStorage

theorem string_length_zero_eq_empty (s : String) (h : s.length = 0) : s = "" := by
  cases s with
  | mk data =>
    rcases data with _ | ⟨c, cs⟩
    · rfl
    · exact absurd h (by
        show ¬ (String.mk (c :: cs)).length = 0
        show ¬ (c :: cs).length = 0
        simp)

theorem string_append_ne_self (p s : String) (h : s ≠ "") : p ++ s ≠ p := by
  intro hc
  apply h
  have hl := congrArg String.length hc
  rw [String.length_append] at hl
  exact string_length_zero_eq_empty s (by omega)

theorem string_append_assoc4 (p a b c : String) : p ++ a ++ b ++ c = p ++ (a ++ b ++ c) := by
  rw [String.append_assoc, String.append_assoc, String.append_assoc]

theorem string_append_assoc5 (p a b c d : String) :
    p ++ a ++ b ++ c ++ d = p ++ (a ++ b ++ c ++ d) := by
  simp [String.append_assoc]

theorem string_data_inj (s t : String) (h : s.data = t.data) : s = t := by
  cases s
  cases t
  exact congrArg String.mk h

theorem string_append_left_cancel (a x y : String) (h : a ++ x = a ++ y) : x = y := by
  apply string_data_inj
  have hd := congrArg String.data h
  rw [String.data_append, String.data_append] at hd
  exact List.append_cancel_left hd

namespace FileSystemStorage

/-- Characterization of `_finalize` on a raw file whose sibling namespace
is untouched: either a strictly smaller compression wins (file moved
under the suffixed name, write bits dropped) or the raw file is kept
(write bits dropped).  All other paths are unaffected. -/
theorem finalize_fresh_spec (K cfg : List Compressor) (fs : FS) (p : String)
    (b : List Nat) (wr : Bool)
    (hf : fsLookup fs p = some ⟨b, wr⟩)
    (hfresh : ∀ s : String, s ≠ "" → fsLookup fs (p ++ s) = none) :
    ((∃ c ∈ cfg, (c.comp b).length < b.length) →
      ∃ c ∈ cfg, (c.comp b).length < b.length ∧
        (∀ c' ∈ cfg, (c.comp b).length ≤ (c'.comp b).length) ∧
        ∃ fs', finalize K cfg fs p = .ok fs' ∧
          fsLookup fs' p = none ∧
          fsLookup fs' (p ++ "." ++ c.name) = some ⟨c.comp b, false⟩ ∧
          ∀ q : String, q ≠ p → q ≠ p ++ "." ++ c.name → fsLookup fs' q = fsLookup fs q) ∧
    ((∀ c ∈ cfg, b.length ≤ (c.comp b).length) →
      ∃ fs', finalize K cfg fs p = .ok fs' ∧
        fsLookup fs' p = some ⟨b, false⟩ ∧
        ∀ q : String, q ≠ p → fsLookup fs' q = fsLookup fs q) := by
  constructor
  · intro hwin
    rcases pickBest_of_winner p b cfg hwin with ⟨c, hc, hpick, hlt, hmin⟩
    have hcfgne : cfg.isEmpty = false := by
      cases cfg
      · simp at hc
      · rfl
    have hsib_none : fsLookup fs (p ++ "." ++ c.name) = none := by
      rw [string_append_dot_assoc]
      exact hfresh _ (string_dot_append_ne_empty _)
    have hfin_sib : is_finalized K fs (p ++ "." ++ c.name) = false := by
      unfold is_finalized exist_compressed_file
      rw [hsib_none]
      have hany : (K.any fun c' => fsExists fs (p ++ "." ++ c.name ++ "." ++ c'.name)) =
          false := by
        rw [List.any_eq_false]
        intro c' _
        unfold fsExists
        rw [string_append_assoc5 p "." c.name "." c'.name]
        rw [hfresh _ (string_append_left_ne_empty _ _
          (string_append_left_ne_empty _ _ (string_dot_append_ne_empty c.name)))]
        simp
      rw [hany]
      rfl
    have hwrite : write_file K fs (p ++ "." ++ c.name) (c.comp b) .overwrite =
        .ok (fsSet fs (p ++ "." ++ c.name) ⟨c.comp b, true⟩) := by
      unfold write_file
      rw [if_neg (by simp [hfin_sib])]
    have hcompress : compress K cfg fs p =
        .ok (fsRemove (fsSet fs (p ++ "." ++ c.name) ⟨c.comp b, true⟩) p,
          p ++ "." ++ c.name) := by
      unfold compress
      rw [if_neg (by simp [hcfgne])]
      simp only [hf]
      rw [show pickBest p (FsFile.mk b wr).content cfg = (p ++ "." ++ c.name, c.comp b)
        from hpick]
      rw [if_neg (string_suffixed_ne p c.name)]
      rw [hwrite]
    refine ⟨c, hc, hlt, hmin,
      drop_write_permissions
        (fsRemove (fsSet fs (p ++ "." ++ c.name) ⟨c.comp b, true⟩) p)
        (p ++ "." ++ c.name), ?_, ?_, ?_, ?_⟩
    · unfold finalize
      rw [hcompress]
    · rw [fsLookup_drop_write_permissions,
        if_neg (fun h => string_suffixed_ne p c.name h.symm),
        fsLookup_fsRemove, if_pos rfl]
    · rw [fsLookup_drop_write_permissions, if_pos rfl, fsLookup_fsRemove,
        if_neg (string_suffixed_ne p c.name), fsLookup_fsSet, if_pos rfl]
      rfl
    · intro q hq1 hq2
      rw [fsLookup_drop_write_permissions, if_neg hq2, fsLookup_fsRemove, if_neg hq1,
        fsLookup_fsSet, if_neg hq2]
  · intro hnone
    have hcompress : compress K cfg fs p = .ok (fs, p) := by
      unfold compress
      rcases hcfg : cfg.isEmpty with _ | _
      · rw [if_neg (by simp [hcfg])]
        simp only [hf]
        rw [show pickBest p (FsFile.mk b wr).content cfg = (p, b)
          from pickBest_of_no_winner p b cfg hnone]
        rw [if_pos rfl]
      · simp
    refine ⟨drop_write_permissions fs p, ?_, ?_, ?_⟩
    · unfold finalize
      rw [hcompress]
    · rw [fsLookup_drop_write_permissions, if_pos rfl, hf]
      rfl
    · intro q hq
      rw [fsLookup_drop_write_permissions, if_neg hq]

end FileSystemStorage

open FileSystemStorage in
/-- C4: finalizing a raw file holding bytes `b`: when some configured
compressor strictly shrinks `b`, a smallest such output is written under
`path.<suffix>` (write permissions dropped) and the raw file is removed;
when no compressor beats the raw size, the raw file is kept with content
`b` (write permissions dropped) and no sibling file is created. -/
theorem claim_c4_compression_selection (K cfg : List Compressor) (fs : FS) (p : String)
    (b : List Nat) (wr : Bool)
    (hf : fsLookup fs p = some ⟨b, wr⟩)
    (hfresh : ∀ s : String, s ≠ "" → fsLookup fs (p ++ s) = none) :
    ((∃ c ∈ cfg, (c.comp b).length < b.length) →
      ∃ c ∈ cfg, (c.comp b).length < b.length ∧
        (∀ c' ∈ cfg, (c.comp b).length ≤ (c'.comp b).length) ∧
        ∃ fs', finalize K cfg fs p = .ok fs' ∧
          fsLookup fs' p = none ∧
          fsLookup fs' (p ++ "." ++ c.name) = some ⟨c.comp b, false⟩) ∧
    ((∀ c ∈ cfg, b.length ≤ (c.comp b).length) →
      ∃ fs', finalize K cfg fs p = .ok fs' ∧
        fsLookup fs' p = some ⟨b, false⟩ ∧
        ∀ s : String, s ≠ "" → fsLookup fs' (p ++ s) = none) := by
  have h := finalize_fresh_spec K cfg fs p b wr hf hfresh
  constructor
  · intro hwin
    rcases h.1 hwin with ⟨c, hc, hlt, hmin, fs', hfin, hp, hsib, _⟩
    exact ⟨c, hc, hlt, hmin, fs', hfin, hp, hsib⟩
  · intro hnone
    rcases h.2 hnone with ⟨fs', hfin, hp, hframe⟩
    refine ⟨fs', hfin, hp, fun s hs => ?_⟩
    rw [hframe (p ++ s) (string_append_ne_self p s hs)]
    exact hfresh s hs

open FileSystemStorage in
/-- C4 witness: a one-compressor configuration whose output is always
empty (so it wins on nonempty input), applied to a two-byte file. -/
theorem claim_c4_compression_selection_witness :
    (fsLookup ⟨[("f", ⟨[7, 7], true⟩)]⟩ "f" = some ⟨[7, 7], true⟩) ∧
    ∃ c ∈ [Compressor.mk "gz" (fun _ => []) (fun _ => [])],
      (c.comp [7, 7]).length < [7, 7].length ∧
      (∀ c' ∈ [Compressor.mk "gz" (fun _ => []) (fun _ => [])],
        (c.comp [7, 7]).length ≤ (c'.comp [7, 7]).length) ∧
      ∃ fs', finalize [Compressor.mk "gz" (fun _ => []) (fun _ => [])]
          [Compressor.mk "gz" (fun _ => []) (fun _ => [])] ⟨[("f", ⟨[7, 7], true⟩)]⟩ "f" =
            .ok fs' ∧
        fsLookup fs' "f" = none ∧
        fsLookup fs' ("f" ++ "." ++ c.name) = some ⟨c.comp [7, 7], false⟩ := by
  have h := claim_c4_compression_selection
    [Compressor.mk "gz" (fun _ => []) (fun _ => [])]
    [Compressor.mk "gz" (fun _ => []) (fun _ => [])]
    ⟨[("f", ⟨[7, 7], true⟩)]⟩ "f" [7, 7] true rfl
    (fun s hs => by
      show Option.map _ (List.find? _ _) = none
      have hb : ("f" == ("f" ++ s)) = false := by
        simp only [beq_eq_false_iff_ne, ne_eq]
        exact fun h => string_append_ne_self "f" s hs h.symm
      simp [List.find?_cons, hb])
  exact ⟨rfl, h.1 ⟨Compressor.mk "gz" (fun _ => []) (fun _ => []), by simp, by simp⟩⟩

/-! ### Claim C5: save(is_final) / load round-trip on a fresh target -/

namespace FileSystemStorage

theorem loadAux_all_missing (fs : FS) (p : String) (K : List Compressor)
    (h : ∀ c ∈ K, fsLookup fs (p ++ "." ++ c.name) = none) :
    loadAux fs p K =
      (match fsLookup fs p with
        | some f => .ok f.content
        | none => .error .missingFile) := by
  induction K with
  | nil => rfl
  | cons c K ih =>
    show (match fsLookup fs (p ++ "." ++ c.name) with
      | some f => Except.ok (c.decomp f.content)
      | none => loadAux fs p K) = _
    rw [h c (List.mem_cons_self c K)]
    exact ih (fun c' hc' => h c' (List.mem_cons_of_mem c hc'))

theorem loadAux_hit (fs : FS) (p : String) (K : List Compressor) (c : Compressor)
    (data : List Nat) (wrt : Bool)
    (hmem : c ∈ K) (hnodup : (K.map Compressor.name).Nodup)
    (hhit : fsLookup fs (p ++ "." ++ c.name) = some ⟨data, wrt⟩)
    (hmiss : ∀ c' ∈ K, c'.name ≠ c.name → fsLookup fs (p ++ "." ++ c'.name) = none) :
    loadAux fs p K = .ok (c.decomp data) := by
  induction K with
  | nil => simp at hmem
  | cons c₀ K ih =>
    show (match fsLookup fs (p ++ "." ++ c₀.name) with
      | some f => Except.ok (c₀.decomp f.content)
      | none => loadAux fs p K) = _
    by_cases hname : c₀.name = c.name
    · have hc₀ : c₀ = c := by
        rcases List.mem_cons.mp hmem with rfl | htail
        · rfl
        · exfalso
          rw [List.map_cons, List.nodup_cons] at hnodup
          exact hnodup.1 (hname ▸ List.mem_map_of_mem Compressor.name htail)
      subst hc₀
      rw [hhit]
    · rw [hmiss c₀ (List.mem_cons_self c₀ K) hname]
      have hmem' : c ∈ K := by
        rcases List.mem_cons.mp hmem with rfl | htail
        · exact absurd rfl hname
        · exact htail
      exact ih hmem' (by
          rw [List.map_cons, List.nodup_cons] at hnodup
          exact hnodup.2)
        (fun c' hc' hn => hmiss c' (List.mem_cons_of_mem c₀ hc') hn)

end FileSystemStorage

open FileSystemStorage in
/-- C5: after `save(p, b, is_final=true)` on a fresh target, `load(p)`
returns exactly `b`: load probes each known compression suffix in order,
decompresses transparently on a hit, and otherwise reads the raw path. -/
theorem claim_c5_save_load_roundtrip (K cfg : List Compressor) (fs : FS) (p : String)
    (b : List Nat)
    (hfreshp : fsLookup fs p = none)
    (hfresh : ∀ s : String, s ≠ "" → fsLookup fs (p ++ s) = none)
    (hcfgK : ∀ c ∈ cfg, c ∈ K)
    (hnodup : (K.map Compressor.name).Nodup)
    (hinv : ∀ c ∈ cfg, ∀ d, c.decomp (c.comp d) = d) :
    ∃ fs', save K cfg fs p b true = .ok fs' ∧ load K fs' p = .ok b := by
  have hnf : is_finalized K fs p = false := by
    unfold is_finalized exist_compressed_file
    rw [hfreshp]
    have hany : (K.any fun c => fsExists fs (p ++ "." ++ c.name)) = false := by
      rw [List.any_eq_false]
      intro c _
      unfold fsExists
      rw [string_append_dot_assoc, hfresh _ (string_dot_append_ne_empty _)]
      simp
    rw [hany]
    rfl
  have hwrite : write_file K fs p b .overwrite = .ok (fsSet fs p ⟨b, true⟩) := by
    unfold write_file
    rw [if_neg (by simp [hnf])]
  have hfs1p : fsLookup (fsSet fs p ⟨b, true⟩) p = some ⟨b, true⟩ := by
    rw [fsLookup_fsSet, if_pos rfl]
  have hfs1fresh : ∀ s : String, s ≠ "" → fsLookup (fsSet fs p ⟨b, true⟩) (p ++ s) = none := by
    intro s hs
    rw [fsLookup_fsSet, if_neg (string_append_ne_self p s hs)]
    exact hfresh s hs
  have hspec := finalize_fresh_spec K cfg (fsSet fs p ⟨b, true⟩) p b true hfs1p hfs1fresh
  have hsave : ∀ fs', finalize K cfg (fsSet fs p ⟨b, true⟩) p = .ok fs' →
      save K cfg fs p b true = .ok fs' := by
    intro fs' hfin
    unfold save persist
    rw [hwrite]
    show (if true = true then finalize K cfg (fsSet fs p ⟨b, true⟩) p
      else .ok (fsSet fs p ⟨b, true⟩)) = .ok fs'
    rw [if_pos rfl]
    exact hfin
  by_cases hwin : ∃ c ∈ cfg, (c.comp b).length < b.length
  · rcases hspec.1 hwin with ⟨c, hc, _, _, fs', hfin, hp, hsib, hframe⟩
    refine ⟨fs', hsave fs' hfin, ?_⟩
    unfold load
    rw [loadAux_hit fs' p K c (c.comp b) false (hcfgK c hc) hnodup hsib ?_]
    · rw [hinv c hc b]
    · intro c' hc' hn
      rw [hframe (p ++ "." ++ c'.name) (string_suffixed_ne p c'.name) (fun h =>
        hn (string_append_left_cancel (p ++ ".") c'.name c.name h))]
      rw [string_append_dot_assoc]
      exact hfs1fresh _ (string_dot_append_ne_empty _)
  · push_neg at hwin
    rcases hspec.2 (fun c hc => le_of_not_lt (by
        intro hlt
        exact absurd hlt (not_lt.mpr (hwin c hc)))) with ⟨fs', hfin, hp, hframe⟩
    refine ⟨fs', hsave fs' hfin, ?_⟩
    unfold load
    rw [loadAux_all_missing fs' p K ?_]
    · rw [hp]
    · intro c _
      rw [hframe (p ++ "." ++ c.name) (string_suffixed_ne p c.name)]
      rw [string_append_dot_assoc]
      exact hfs1fresh _ (string_dot_append_ne_empty _)

open FileSystemStorage in
/-- C5 witness: identity "compression" (never strictly smaller, so the
raw path is kept) on an empty file system; load returns the saved bytes. -/
theorem claim_c5_save_load_roundtrip_witness :
    ∃ fs', save [Compressor.mk "gz" (fun d => d) (fun d => d)]
        [Compressor.mk "gz" (fun d => d) (fun d => d)] ⟨[]⟩ "f" [1, 2, 3] true = .ok fs' ∧
      load [Compressor.mk "gz" (fun d => d) (fun d => d)] fs' "f" = .ok [1, 2, 3] := by
  refine claim_c5_save_load_roundtrip _ _ ⟨[]⟩ "f" [1, 2, 3] rfl (fun s _ => rfl)
    (fun c hc => hc) (by simp) ?_
  intro c hc d
  rcases List.mem_singleton.mp hc with rfl
  rfl

/-! ### Claim C9: blockchain states come from finalized files -/

namespace FileSystemStorage

theorem is_finalized_of_lookup_unwritable (K : List Compressor) (fs : FS) (p : String)
    (c : List Nat) (h : fsLookup fs p = some ⟨c, false⟩) :
    is_finalized K fs p = true := by
  unfold is_finalized
  rw [h]
  simp [has_write_permissions]

theorem is_finalized_of_sibling (K : List Compressor) (fs : FS) (p : String) (c : Compressor)
    (hc : c ∈ K) (h : fsExists fs (p ++ "." ++ c.name) = true) :
    is_finalized K fs p = true := by
  unfold is_finalized exist_compressed_file
  rw [List.any_eq_true.mpr ⟨c, hc, h⟩]
  rfl

theorem compress_ok_cases (K cfg : List Compressor) (fs : FS) (p : String) (f : FsFile)
    (fs₁ : FS) (nn : String) (hex : fsLookup fs p = some f)
    (h : compress K cfg fs p = .ok (fs₁, nn)) :
    (fs₁ = fs ∧ nn = p) ∨
    ∃ c ∈ cfg, nn = p ++ "." ++ c.name ∧
      fs₁ = fsRemove (fsSet fs (p ++ "." ++ c.name) ⟨c.comp f.content, true⟩) p := by
  unfold compress at h
  by_cases hcfg : cfg.isEmpty = true
  · rw [if_pos hcfg] at h
    simp at h
    exact Or.inl ⟨h.1.symm, h.2.symm⟩
  · rw [if_neg hcfg] at h
    simp only [hex] at h
    rcases pickBest_shape p f.content cfg (p, f.content) with hq | ⟨c, hc, hq, _⟩
    · rw [show pickBest p f.content cfg = (p, f.content) from hq] at h
      rw [if_pos rfl] at h
      simp at h
      exact Or.inl ⟨h.1.symm, h.2.symm⟩
    · rw [show pickBest p f.content cfg = (p ++ "." ++ c.name, c.comp f.content) from hq] at h
      rw [if_neg (string_suffixed_ne p c.name)] at h
      by_cases hfin : is_finalized K fs (p ++ "." ++ c.name) = true
      · rw [write_file_error_of_finalized K fs _ _ _ hfin] at h
        simp at h
      · have hw : write_file K fs (p ++ "." ++ c.name) (c.comp f.content) .overwrite =
            .ok (fsSet fs (p ++ "." ++ c.name) ⟨c.comp f.content, true⟩) := by
          unfold write_file
          rw [if_neg hfin]
        rw [hw] at h
        simp at h
        exact Or.inr ⟨c, hc, h.2.symm, h.1.symm⟩

theorem finalize_ok_finalized (K cfg : List Compressor) (fs : FS) (p : String) (f : FsFile)
    (fs' : FS) (hex : fsLookup fs p = some f) (hcfgK : ∀ c ∈ cfg, c ∈ K)
    (h : finalize K cfg fs p = .ok fs') : is_finalized K fs' p = true := by
  unfold finalize at h
  rcases hcomp : compress K cfg fs p with e | ⟨fs₁, nn⟩
  · rw [hcomp] at h
    simp at h
  · rw [hcomp] at h
    simp only [Except.ok.injEq] at h
    subst h
    rcases compress_ok_cases K cfg fs p f fs₁ nn hex hcomp with ⟨hfs₁, hnn⟩ |
      ⟨c, hc, hnn, hfs₁⟩
    · rw [hfs₁, hnn]
      apply is_finalized_of_lookup_unwritable K _ p f.content
      rw [fsLookup_drop_write_permissions, if_pos rfl, hex]
      rfl
    · rw [hfs₁, hnn]
      apply is_finalized_of_sibling K _ p c (hcfgK c hc)
      unfold fsExists
      rw [fsLookup_drop_write_permissions, if_pos rfl, fsLookup_fsRemove,
        if_neg (string_suffixed_ne p c.name), fsLookup_fsSet, if_pos rfl]
      rfl

theorem save_final_ok_finalized (K cfg : List Compressor) (fs : FS) (p : String)
    (data : List Nat) (fs' : FS) (hcfgK : ∀ c ∈ cfg, c ∈ K)
    (h : save K cfg fs p data true = .ok fs') : is_finalized K fs' p = true := by
  unfold save persist at h
  by_cases hfin : is_finalized K fs p = true
  · rw [write_file_error_of_finalized K fs p data .overwrite hfin] at h
    simp at h
  · have hw : write_file K fs p data .overwrite = .ok (fsSet fs p ⟨data, true⟩) := by
      unfold write_file
      rw [if_neg hfin]
    rw [hw] at h
    simp only [if_pos rfl] at h
    exact finalize_ok_finalized K cfg (fsSet fs p ⟨data, true⟩) p ⟨data, true⟩ fs'
      (by rw [fsLookup_fsSet, if_pos rfl]) hcfgK h

end FileSystemStorage

namespace FileBlockchain

theorem stateCacheGet_mem {σ : Type} (cache : List (String × σ)) (p : String) (v : σ)
    (h : stateCacheGet cache p = some v) : ∃ e ∈ cache, e.1 = p := by
  unfold stateCacheGet at h
  rcases hf : cache.find? (fun e => e.1 == p) with _ | ⟨e⟩
  · rw [hf] at h
    simp at h
  · refine ⟨e, List.mem_of_find?_eq_some hf, ?_⟩
    have := List.find?_some hf
    simpa using this

theorem yield_go_finalized {σ : Type} (decode : List Nat → σ) (K : List Compressor) (fs : FS) :
    ∀ (paths : List String) (cache : List (String × σ)) (out : List σ × List (String × σ)),
      (∀ e ∈ cache, FileSystemStorage.is_finalized K fs e.1 = true) →
      yield_blockchain_states_go decode K fs paths cache = some out →
      (∀ p ∈ paths, FileSystemStorage.is_finalized K fs p = true) ∧
      ∀ e ∈ out.2, FileSystemStorage.is_finalized K fs e.1 = true := by
  intro paths
  induction paths with
  | nil =>
    intro cache out hcache hrun
    unfold yield_blockchain_states_go at hrun
    simp only [Option.some.injEq] at hrun
    subst hrun
    exact ⟨by simp, hcache⟩
  | cons p rest ih =>
    intro cache out hcache hrun
    unfold yield_blockchain_states_go at hrun
    rcases hload : load_blockchain_states decode K fs cache p with _ | ⟨v, cache₁⟩
    · rw [hload] at hrun
      simp at hrun
    · rw [hload] at hrun
      have hrun' : (match yield_blockchain_states_go decode K fs rest cache₁ with
          | none => none
          | some (vs, cache₂) => some (v :: vs, cache₂)) = some out := hrun
      have hstep : FileSystemStorage.is_finalized K fs p = true ∧
          ∀ e ∈ cache₁, FileSystemStorage.is_finalized K fs e.1 = true := by
        unfold load_blockchain_states at hload
        rcases hget : stateCacheGet cache p with _ | ⟨w⟩
        · rw [hget] at hload
          by_cases hfin : FileSystemStorage.is_finalized K fs p = true
          · rw [if_pos hfin] at hload
            rcases hl : FileSystemStorage.load K fs p with e | bytes
            · rw [hl] at hload
              simp at hload
            · rw [hl] at hload
              simp only [Option.some.injEq, Prod.mk.injEq] at hload
              refine ⟨hfin, ?_⟩
              rw [← hload.2]
              intro e he
              rcases List.mem_cons.mp he with rfl | he
              · exact hfin
              · exact hcache e he
          · rw [if_neg hfin] at hload
            simp at hload
        · rw [hget] at hload
          simp only [Option.some.injEq, Prod.mk.injEq] at hload
          rcases stateCacheGet_mem cache p w hget with ⟨e, he, hkey⟩
          refine ⟨hkey ▸ hcache e he, ?_⟩
          rw [← hload.2]
          exact hcache
      rcases hrest : yield_blockchain_states_go decode K fs rest cache₁ with _ | ⟨vs, cache₂⟩
      · rw [hrest] at hrun'
        simp at hrun'
      · rw [hrest] at hrun'
        simp only [Option.some.injEq] at hrun'
        subst hrun'
        have := ih cache₁ (vs, cache₂) hstep.2 hrest
        refine ⟨?_, ?_⟩
        · intro q hq
          rcases List.mem_cons.mp hq with rfl | hq
          · exact hstep.1
          · exact this.1 q hq
        · exact this.2

end FileBlockchain

open FileBlockchain FileSystemStorage in
/-- C9: blockchain states are persisted with `is_final=true`, so the
persisted file is finalized; enumeration in either direction loads each
file through `_load_blockchain_states`, which (given a cache whose entries
came from finalized files) only returns states originating from finalized,
immutable files. -/
theorem claim_c9_states_from_finalized_files {σ : Type} (decode : List Nat → σ)
    (K cfg : List Compressor) (fs fs₁ : FS) (lbn : Option Nat) (data : List Nat)
    (cache : List (String × σ)) (asc : Bool) (out : List σ × List (String × σ))
    (hcfgK : ∀ c ∈ cfg, c ∈ K)
    (hsave : persist_blockchain_state K cfg fs lbn data = .ok fs₁)
    (hcache : ∀ e ∈ cache, is_finalized K fs₁ e.1 = true)
    (hyield : yield_blockchain_states_go decode K fs₁ (list_directory K fs₁ asc) cache =
      some out) :
    is_finalized K fs₁ (make_blockchain_state_filename lbn) = true ∧
    (∀ p ∈ list_directory K fs₁ asc, is_finalized K fs₁ p = true) ∧
    ∀ e ∈ out.2, is_finalized K fs₁ e.1 = true := by
  have h1 : is_finalized K fs₁ (make_blockchain_state_filename lbn) = true :=
    save_final_ok_finalized K cfg fs (make_blockchain_state_filename lbn) data fs₁ hcfgK hsave
  have h2 := yield_go_finalized decode K fs₁ (list_directory K fs₁ asc) cache out hcache hyield
  exact ⟨h1, h2.1, h2.2⟩

open FileBlockchain FileSystemStorage in
/-- C9 witness: persist the genesis state on an empty store (no
compressors), then enumerate; the single listed file is finalized. -/
theorem claim_c9_states_from_finalized_files_witness :
    ∃ fs₁ out,
      persist_blockchain_state [] [] ⟨[]⟩ none [3] = .ok fs₁ ∧
      yield_blockchain_states_go (fun b => b) [] fs₁ (list_directory [] fs₁ true) [] =
        some out ∧
      is_finalized [] fs₁ (make_blockchain_state_filename none) = true ∧
      (∀ p ∈ list_directory [] fs₁ true, is_finalized [] fs₁ p = true) ∧
      ∀ e ∈ out.2, is_finalized [] fs₁ e.1 = true := by
  have hsave : persist_blockchain_state [] [] ⟨[]⟩ none [3] =
      .ok ⟨[(make_blockchain_state_filename none, ⟨[3], false⟩)]⟩ := by rfl
  have hyield : yield_blockchain_states_go (fun (b : List Nat) => b) []
      ⟨[(make_blockchain_state_filename none, ⟨[3], false⟩)]⟩
      (list_directory [] ⟨[(make_blockchain_state_filename none, ⟨[3], false⟩)]⟩ true) [] =
      some ([[3]], [(make_blockchain_state_filename none, [3])]) := by rfl
  refine ⟨_, _, hsave, hyield, ?_⟩
  exact claim_c9_states_from_finalized_files (fun b => b) [] [] ⟨[]⟩ _ none [3] [] true _
    (by simp) hsave (by simp) hyield

/-! ### Claim C1: the persist_block write path -/

open FileBlockchain in
/-- C1: for a positive chunk size `s`, `persist_block` computes
`chunk_start = ⌊n/s⌋·s`, appends the block to the chunk named
`(chunk_start, n-1)` when `n ≠ chunk_start` and `(chunk_start, n)`
otherwise, renames that file to `(chunk_start, n)` exactly when the two
names differ (equivalently, when `n ≠ chunk_start`), and finalizes the
chunk iff `n mod s = s - 1`. -/
theorem claim_c1_persist_block (st : BlockStorage) (s : Nat) (b : Blk) (hs : 0 < s) :
    (persist_block st s b =
      (let chunkStart := b.number / s * s
       let appendName := make_block_chunk_filename chunkStart
         (if b.number = chunkStart then b.number else b.number - 1)
       let target := make_block_chunk_filename chunkStart b.number
       let st₁ := st.appendFile appendName b
       let st₂ := if appendName ≠ target then st₁.moveFile appendName target else st₁
       if b.number % s = s - 1 then st₂.finalizeFile target else st₂)) ∧
    (make_block_chunk_filename (b.number / s * s)
        (if b.number = b.number / s * s then b.number else b.number - 1) ≠
          make_block_chunk_filename (b.number / s * s) b.number ↔
      b.number ≠ b.number / s * s) := by
  have hcs : b.number / s * s ≤ b.number := Nat.div_mul_le_self _ _
  have hiff : (if b.number / s * s = b.number then b.number else b.number - 1) =
      (if b.number = b.number / s * s then b.number else b.number - 1) := by
    by_cases h : b.number = b.number / s * s
    · rw [if_pos h, if_pos h.symm]
    · rw [if_neg h, if_neg (fun hh => h hh.symm)]
  constructor
  · simp only [persist_block]
    rw [hiff]
  · constructor
    · intro hne heq
      apply hne
      rw [if_pos heq, heq]
    · intro hne
      rw [if_neg hne]
      intro heq
      have hlt : b.number / s * s < b.number := lt_of_le_of_ne hcs (fun h => hne h.symm)
      have := make_block_chunk_filename_inj (b.number / s * s) (b.number - 1)
        (b.number / s * s) b.number (by omega) hcs heq
      omega

open FileBlockchain in
/-- C1 witness: chunk size 2, block number 3 (mid-chunk append: rename
and finalize both fire). -/
theorem claim_c1_persist_block_witness :
    (0 : Nat) < 2 ∧
    ((persist_block ⟨[], []⟩ 2 ⟨3, 5⟩ =
      (let chunkStart := (3 : Nat) / 2 * 2
       let appendName := make_block_chunk_filename chunkStart
         (if 3 = chunkStart then 3 else 3 - 1)
       let target := make_block_chunk_filename chunkStart 3
       let st₁ := BlockStorage.appendFile ⟨[], []⟩ appendName ⟨3, 5⟩
       let st₂ := if appendName ≠ target then st₁.moveFile appendName target else st₁
       if 3 % 2 = 2 - 1 then st₂.finalizeFile target else st₂)) ∧
    (make_block_chunk_filename ((3 : Nat) / 2 * 2)
        (if 3 = (3 : Nat) / 2 * 2 then 3 else 3 - 1) ≠
          make_block_chunk_filename ((3 : Nat) / 2 * 2) 3 ↔
      (3 : Nat) ≠ (3 : Nat) / 2 * 2)) :=
  ⟨by decide, claim_c1_persist_block ⟨[], []⟩ 2 ⟨3, 5⟩ (by decide)⟩

/-! ### Claim C6 groundwork: association-list and chunk arithmetic -/

theorem assoc_any_eq_false_of_not_mem {α : Type} (l : List (String × α)) (k : String)
    (h : k ∉ l.map Prod.fst) : l.any (fun e => e.1 == k) = false := by
  rw [List.any_eq_false]
  intro e he hc
  exact h (by
    have : e.1 = k := by simpa using hc
    exact this ▸ List.mem_map_of_mem Prod.fst he)

theorem assoc_map_update_append {α : Type} (init : List (String × α)) (k : String) (v : α)
    (f : α → α) (hk : k ∉ init.map Prod.fst) :
    (init ++ [(k, v)]).map (fun e => if e.1 == k then (e.1, f e.2) else e) =
      init ++ [(k, f v)] := by
  induction init with
  | nil => simp
  | cons e l ih =>
    have hne : (e.1 == k) = false := by
      simp only [beq_eq_false_iff_ne, ne_eq]
      intro h
      exact hk (by simp [h])
    simp only [List.cons_append, List.map_cons, hne, if_neg]
    rw [ih (fun h => hk (by simp [h]))]
    simp [hne]

theorem assoc_map_move_append {α : Type} (init : List (String × α)) (k dst : String) (v : α)
    (hk : k ∉ init.map Prod.fst) :
    (init ++ [(k, v)]).map (fun e => if e.1 == k then (dst, e.2) else e) =
      init ++ [(dst, v)] := by
  induction init with
  | nil => simp
  | cons e l ih =>
    have hne : (e.1 == k) = false := by
      simp only [beq_eq_false_iff_ne, ne_eq]
      intro h
      exact hk (by simp [h])
    simp only [List.cons_append, List.map_cons, hne, if_neg]
    rw [ih (fun h => hk (by simp [h]))]
    simp [hne]

theorem ceil_chunks_mod_zero (s m : Nat) (hs : 0 < s) (h : m % s = 0) :
    (m + s - 1) / s = m / s := by
  obtain ⟨q, rfl⟩ : ∃ q, m = s * q :=
    ⟨m / s, (Nat.mul_div_cancel' (Nat.dvd_of_mod_eq_zero h)).symm⟩
  rw [Nat.add_sub_assoc hs, Nat.mul_add_div hs, Nat.mul_div_cancel_left q hs,
    Nat.div_eq_of_lt (by omega)]
  omega

theorem ceil_chunks_mod_pos (s m : Nat) (hs : 0 < s) (h : m % s ≠ 0) :
    (m + s - 1) / s = m / s + 1 := by
  have hdecomp := Nat.div_add_mod m s
  set q := m / s with hq
  set r := m % s with hr
  have hr1 : 1 ≤ r := by omega
  have hrs : r < s := Nat.mod_lt m hs
  have hsplit : m + s - 1 = s * q + (r + s - 1) := by omega
  rw [hsplit, Nat.mul_add_div hs]
  have hone : (r + s - 1) / s = 1 := by
    rw [show r + s - 1 = (r - 1) + s by omega, Nat.add_div_right _ hs,
      Nat.div_eq_of_lt (by omega)]
  omega

theorem lt_ceil_imp (s m i : Nat) (hs : 0 < s) (hi : i < (m + s - 1) / s) : i * s < m := by
  by_contra hc
  push_neg at hc
  have hle : (m + s - 1) / s ≤ (i * s + s - 1) / s :=
    Nat.div_le_div_right (by omega)
  rw [show i * s + s - 1 = s * i + (s - 1) by rw [Nat.add_sub_assoc hs, Nat.mul_comm]] at hle
  have h0 : (s - 1) / s = 0 := Nat.div_eq_of_lt (by omega)
  rw [Nat.mul_add_div hs, h0] at hle
  omega

namespace FileBlockchain

theorem expectedFiles_nil (s : Nat) (hs : 0 < s) : expectedFiles s [] = [] := by
  unfold expectedFiles
  rw [show ((([] : List Blk).length + s - 1) / s) = 0 from by
    simp only [List.length_nil, Nat.zero_add]
    exact Nat.div_eq_of_lt (by omega)]
  simp

theorem chunk_start_le_end (s m i : Nat) (hs : 0 < s) (hi : i < (m + s - 1) / s) :
    i * s ≤ min ((i + 1) * s) m - 1 := by
  have h1 : i * s < m := lt_ceil_imp s m i hs hi
  have h2 : i * s < (i + 1) * s := (Nat.mul_lt_mul_right hs).mpr (by omega)
  omega

theorem expectedFiles_parse (s : Nat) (m i : Nat) (hs : 0 < s)
    (hi : i < (m + s - 1) / s) :
    get_block_chunk_filename_meta
      (make_block_chunk_filename (i * s) (min ((i + 1) * s) m - 1)) =
      some (i * s, min ((i + 1) * s) m - 1) :=
  get_block_chunk_filename_meta_make _ _ (chunk_start_le_end s m i hs hi)

theorem expectedFiles_map_fst (s : Nat) (bs : List Blk) :
    (expectedFiles s bs).map Prod.fst =
      (List.range ((bs.length + s - 1) / s)).map
        (fun i => make_block_chunk_filename (i * s) (min ((i + 1) * s) bs.length - 1)) := by
  unfold expectedFiles
  rw [List.map_map]
  rfl

theorem expectedFiles_keys_sorted (s : Nat) (bs : List Blk) (hs : 0 < s) :
    List.Sorted chunkNameLe ((expectedFiles s bs).map Prod.fst) := by
  rw [expectedFiles_map_fst]
  show List.Pairwise chunkNameLe _
  rw [List.pairwise_iff_getElem]
  intro i j hi hj hij
  simp only [List.length_map, List.length_range] at hi hj
  simp only [List.getElem_map, List.getElem_range]
  unfold chunkNameLe chunkKey
  rw [expectedFiles_parse s bs.length i hs hi, expectedFiles_parse s bs.length j hs hj]
  left
  exact (Nat.mul_lt_mul_right hs).mpr hij

theorem expectedFiles_keys_nodup (s : Nat) (bs : List Blk) (hs : 0 < s) :
    ((expectedFiles s bs).map Prod.fst).Nodup := by
  rw [expectedFiles_map_fst]
  show List.Pairwise _ _
  rw [List.pairwise_iff_getElem]
  intro i j hi hj hij
  simp only [List.length_map, List.length_range] at hi hj
  simp only [List.getElem_map, List.getElem_range]
  intro heq
  have h1 := expectedFiles_parse s bs.length i hs hi
  have h2 := expectedFiles_parse s bs.length j hs hj
  rw [heq] at h1
  rw [h2] at h1
  simp only [Option.some.injEq, Prod.mk.injEq] at h1
  have := Nat.eq_of_mul_eq_mul_right hs h1.1.symm
  omega

theorem list_block_directory_forward (s : Nat) (bs : List Blk) (hs : 0 < s)
    (st : BlockStorage) (hfiles : st.files = expectedFiles s bs) :
    list_block_directory st .forward = (expectedFiles s bs).map Prod.fst := by
  unfold list_block_directory
  rw [hfiles]
  exact List.Sorted.insertionSort_eq (expectedFiles_keys_sorted s bs hs)

theorem list_block_directory_backward (s : Nat) (bs : List Blk) (hs : 0 < s)
    (st : BlockStorage) (hfiles : st.files = expectedFiles s bs) :
    list_block_directory st .backward = ((expectedFiles s bs).map Prod.fst).reverse := by
  unfold list_block_directory
  rw [hfiles]
  show (List.insertionSort chunkNameLe _).reverse = _
  rw [List.Sorted.insertionSort_eq (expectedFiles_keys_sorted s bs hs)]

end FileBlockchain

namespace FileBlockchain

theorem finalizeFile_files (st : BlockStorage) (nm : String) :
    (st.finalizeFile nm).files = st.files := rfl

theorem persist_block_files_chunk_start (st : BlockStorage) (s : Nat) (b : Blk)
    (hmod : b.number % s = 0)
    (habs : make_block_chunk_filename b.number b.number ∉ st.files.map Prod.fst) :
    (persist_block st s b).files =
      st.files ++ [(make_block_chunk_filename b.number b.number, [b])] := by
  have hcs : b.number / s * s = b.number := Nat.div_mul_cancel (Nat.dvd_of_mod_eq_zero hmod)
  have happ : (st.appendFile (make_block_chunk_filename b.number b.number) b).files =
      st.files ++ [(make_block_chunk_filename b.number b.number, [b])] := by
    unfold BlockStorage.appendFile
    rw [assoc_any_eq_false_of_not_mem st.files _ habs]
    rfl
  simp only [persist_block, hcs, ite_true]
  by_cases hfin : b.number % s = s - 1
  · rw [if_pos hfin, finalizeFile_files, if_neg (fun h => h rfl), happ]
  · rw [if_neg hfin, if_neg (fun h => h rfl), happ]

theorem persist_block_files_mid_chunk (st : BlockStorage) (s : Nat) (b : Blk)
    (hmod : b.number % s ≠ 0)
    (init : List (String × List Blk)) (v : List Blk)
    (hfiles : st.files =
      init ++ [(make_block_chunk_filename (b.number / s * s) (b.number - 1), v)])
    (habs : make_block_chunk_filename (b.number / s * s) (b.number - 1) ∉
      init.map Prod.fst) :
    (persist_block st s b).files =
      init ++ [(make_block_chunk_filename (b.number / s * s) b.number, v ++ [b])] := by
  have hdm : s * (b.number / s) + b.number % s = b.number := Nat.div_add_mod _ _
  have hle : b.number / s * s ≤ b.number := Nat.div_mul_le_self _ _
  have hpos : 0 < b.number % s := Nat.pos_of_ne_zero hmod
  have hne : ¬ (b.number / s * s = b.number) := by
    rw [Nat.mul_comm]; omega
  have hlt : b.number / s * s < b.number := lt_of_le_of_ne hle hne
  have hnames : make_block_chunk_filename (b.number / s * s) (b.number - 1) ≠
      make_block_chunk_filename (b.number / s * s) b.number := by
    intro h
    have := make_block_chunk_filename_inj _ _ _ _ (by omega) hle h
    omega
  have happ : (st.appendFile (make_block_chunk_filename (b.number / s * s) (b.number - 1))
      b).files =
      init ++ [(make_block_chunk_filename (b.number / s * s) (b.number - 1), v ++ [b])] := by
    unfold BlockStorage.appendFile
    rw [hfiles]
    have hany : (init ++ [(make_block_chunk_filename (b.number / s * s) (b.number - 1),
        v)]).any (fun e =>
          e.1 == make_block_chunk_filename (b.number / s * s) (b.number - 1)) = true := by
      rw [List.any_eq_true]
      exact ⟨_, List.mem_append_right _ (List.mem_singleton_self _), by simp⟩
    rw [hany]
    show (init ++ [_]).map _ = _
    rw [assoc_map_update_append init _ v (fun c => c ++ [b]) habs]
  have hmove : ∀ st₁ : BlockStorage, st₁.files =
      init ++ [(make_block_chunk_filename (b.number / s * s) (b.number - 1), v ++ [b])] →
      (st₁.moveFile (make_block_chunk_filename (b.number / s * s) (b.number - 1))
        (make_block_chunk_filename (b.number / s * s) b.number)).files =
      init ++ [(make_block_chunk_filename (b.number / s * s) b.number, v ++ [b])] := by
    intro st₁ h₁
    unfold BlockStorage.moveFile
    show st₁.files.map _ = _
    rw [h₁]
    exact assoc_map_move_append init _ _ (v ++ [b]) habs
  simp only [persist_block]
  rw [if_neg hne]
  rw [if_pos hnames]
  by_cases hfin : b.number % s = s - 1
  · rw [if_pos hfin, finalizeFile_files]
    exact hmove _ happ
  · rw [if_neg hfin]
    exact hmove _ happ

end FileBlockchain

namespace FileBlockchain

theorem expectedFiles_new_key_absent (s : Nat) (bs : List Blk) (hs : 0 < s) :
    make_block_chunk_filename bs.length bs.length ∉
      (expectedFiles s bs).map Prod.fst := by
  rw [expectedFiles_map_fst]
  intro hmem
  rw [List.mem_map] at hmem
  obtain ⟨i, hi, heq⟩ := hmem
  rw [List.mem_range] at hi
  have h1 := expectedFiles_parse s bs.length i hs hi
  rw [heq, get_block_chunk_filename_meta_make bs.length bs.length (le_refl _)] at h1
  simp only [Option.some.injEq, Prod.mk.injEq] at h1
  have := lt_ceil_imp s bs.length i hs hi
  omega

theorem expectedFiles_snoc_full (s : Nat) (bs : List Blk) (b : Blk) (hs : 0 < s)
    (h : bs.length % s = 0) :
    expectedFiles s (bs ++ [b]) =
      expectedFiles s bs ++ [(make_block_chunk_filename bs.length bs.length, [b])] := by
  have hm : bs.length / s * s = bs.length := Nat.div_mul_cancel (Nat.dvd_of_mod_eq_zero h)
  unfold expectedFiles
  rw [List.length_append, List.length_singleton,
    show bs.length + 1 + s - 1 = bs.length + s from by omega, Nat.add_div_right _ hs,
    ceil_chunks_mod_zero s bs.length hs h, List.range_succ, List.map_append]
  congr 1
  · apply List.map_congr_left
    intro i hi
    rw [List.mem_range] at hi
    have hsucc : (i + 1) * s = i * s + s := Nat.succ_mul i s
    have his : (i + 1) * s ≤ bs.length := by
      calc (i + 1) * s ≤ bs.length / s * s := Nat.mul_le_mul_right s (by omega)
        _ = bs.length := hm
    have hdrop : i * s ≤ bs.length := by omega
    have htake : s ≤ (bs.drop (i * s)).length := by
      rw [List.length_drop]; omega
    rw [List.drop_append_of_le_length hdrop, List.take_append_of_le_length htake]
    congr 2
    omega
  · simp only [List.map_cons, List.map_nil]
    have hsucc : (bs.length / s + 1) * s = bs.length / s * s + s := Nat.succ_mul _ s
    congr 2
    · rw [hm]
      congr 1
      omega
    · rw [hm, List.drop_left]
      exact List.take_of_length_le (by simp; omega)

theorem expectedFiles_partial_decomp (s : Nat) (bs : List Blk) (hs : 0 < s)
    (h : bs.length % s ≠ 0) :
    expectedFiles s bs =
      (List.range (bs.length / s)).map (fun i =>
        (make_block_chunk_filename (i * s) ((i + 1) * s - 1), (bs.drop (i * s)).take s)) ++
      [(make_block_chunk_filename (bs.length / s * s) (bs.length - 1),
        bs.drop (bs.length / s * s))] := by
  have hdm : s * (bs.length / s) + bs.length % s = bs.length := Nat.div_add_mod _ _
  have hmlt : bs.length % s < s := Nat.mod_lt _ hs
  unfold expectedFiles
  rw [ceil_chunks_mod_pos s bs.length hs h, List.range_succ, List.map_append]
  congr 1
  · apply List.map_congr_left
    intro i hi
    rw [List.mem_range] at hi
    have hsucc : (i + 1) * s = i * s + s := Nat.succ_mul i s
    have his : (i + 1) * s ≤ bs.length := by
      have h1 : (i + 1) * s ≤ bs.length / s * s := Nat.mul_le_mul_right s (by omega)
      have h2 : bs.length / s * s ≤ bs.length := Nat.div_mul_le_self _ _
      omega
    congr 2
    omega
  · simp only [List.map_cons, List.map_nil]
    have hsucc : (bs.length / s + 1) * s = bs.length / s * s + s := Nat.succ_mul _ s
    have hmul : bs.length / s * s = s * (bs.length / s) := Nat.mul_comm _ _
    congr 2
    · congr 1
      omega
    · exact List.take_of_length_le (by rw [List.length_drop]; omega)

theorem expectedFiles_snoc_partial (s : Nat) (bs : List Blk) (b : Blk) (hs : 0 < s)
    (h : bs.length % s ≠ 0) :
    expectedFiles s (bs ++ [b]) =
      (List.range (bs.length / s)).map (fun i =>
        (make_block_chunk_filename (i * s) ((i + 1) * s - 1), (bs.drop (i * s)).take s)) ++
      [(make_block_chunk_filename (bs.length / s * s) bs.length,
        bs.drop (bs.length / s * s) ++ [b])] := by
  have hdm : s * (bs.length / s) + bs.length % s = bs.length := Nat.div_add_mod _ _
  have hmlt : bs.length % s < s := Nat.mod_lt _ hs
  have hmul : bs.length / s * s = s * (bs.length / s) := Nat.mul_comm _ _
  unfold expectedFiles
  rw [List.length_append, List.length_singleton,
    show bs.length + 1 + s - 1 = bs.length + s from by omega, Nat.add_div_right _ hs,
    List.range_succ, List.map_append]
  congr 1
  · apply List.map_congr_left
    intro i hi
    rw [List.mem_range] at hi
    have hsucc : (i + 1) * s = i * s + s := Nat.succ_mul i s
    have his : (i + 1) * s ≤ bs.length := by
      have h1 : (i + 1) * s ≤ bs.length / s * s := Nat.mul_le_mul_right s (by omega)
      omega
    have hdrop : i * s ≤ bs.length := by omega
    have htake : s ≤ (bs.drop (i * s)).length := by
      rw [List.length_drop]; omega
    rw [List.drop_append_of_le_length hdrop, List.take_append_of_le_length htake]
    congr 2
    omega
  · simp only [List.map_cons, List.map_nil]
    have hsucc : (bs.length / s + 1) * s = bs.length / s * s + s := Nat.succ_mul _ s
    have hdrop : bs.length / s * s ≤ bs.length := by omega
    rw [List.drop_append_of_le_length hdrop]
    congr 2
    · congr 1
      omega
    · exact List.take_of_length_le (by simp only [List.length_append,
        List.length_singleton, List.length_drop]; omega)

theorem prefix_key_absent (s : Nat) (bs : List Blk) (e : Nat) (hs : 0 < s)
    (he : bs.length / s * s ≤ e) :
    make_block_chunk_filename (bs.length / s * s) e ∉
      ((List.range (bs.length / s)).map (fun i =>
        (make_block_chunk_filename (i * s) ((i + 1) * s - 1),
          (bs.drop (i * s)).take s))).map Prod.fst := by
  rw [List.map_map]
  intro hmem
  rw [List.mem_map] at hmem
  obtain ⟨i, hi, heq⟩ := hmem
  rw [List.mem_range] at hi
  have hsucc : (i + 1) * s = i * s + s := Nat.succ_mul i s
  have hparse : get_block_chunk_filename_meta
      (make_block_chunk_filename (i * s) ((i + 1) * s - 1)) =
      some (i * s, (i + 1) * s - 1) :=
    get_block_chunk_filename_meta_make _ _ (by omega)
  have heq' : make_block_chunk_filename (i * s) ((i + 1) * s - 1) =
      make_block_chunk_filename (bs.length / s * s) e := heq
  rw [heq', get_block_chunk_filename_meta_make _ _ he] at hparse
  simp only [Option.some.injEq, Prod.mk.injEq] at hparse
  have := Nat.eq_of_mul_eq_mul_right hs hparse.1
  omega

end FileBlockchain

namespace FileBlockchain

theorem seqNumbered_append_left (bs : List Blk) (b : Blk) (h : SeqNumbered (bs ++ [b])) :
    SeqNumbered bs := by
  intro i hi
  have hi' : i < (bs ++ [b]).length := by simp only [List.length_append]; omega
  have hh := h i hi'
  rw [List.get_eq_getElem, List.getElem_append_left hi] at hh
  rw [List.get_eq_getElem]
  exact hh

theorem seqNumbered_append_last (bs : List Blk) (b : Blk) (h : SeqNumbered (bs ++ [b])) :
    b.number = bs.length := by
  have hlt : bs.length < (bs ++ [b]).length := by simp
  have hh := h bs.length hlt
  rw [List.get_eq_getElem, List.getElem_concat_length bs b bs.length rfl hlt] at hh
  exact hh

theorem chain_storage_snoc (s : Nat) (bs : List Blk) (b : Blk) :
    chain_storage s (bs ++ [b]) = persist_block (chain_storage s bs) s b := by
  unfold chain_storage
  rw [List.foldl_append]
  rfl

theorem chain_storage_files (s : Nat) (bs : List Blk) (hs : 0 < s)
    (hseq : SeqNumbered bs) :
    (chain_storage s bs).files = expectedFiles s bs := by
  revert hseq
  induction bs using List.reverseRecOn with
  | nil =>
    intro _
    rw [expectedFiles_nil s hs]
    rfl
  | append_singleton bs b ih =>
    intro hseq
    have hseq' : SeqNumbered bs := seqNumbered_append_left bs b hseq
    have hnum : b.number = bs.length := seqNumbered_append_last bs b hseq
    have hfiles := ih hseq'
    rw [chain_storage_snoc]
    by_cases hmod : bs.length % s = 0
    · rw [expectedFiles_snoc_full s bs b hs hmod]
      have hpf := persist_block_files_chunk_start (chain_storage s bs) s b
        (by rw [hnum]; exact hmod)
        (by rw [hnum, hfiles]; exact expectedFiles_new_key_absent s bs hs)
      rw [hpf, hfiles, hnum]
    · have hdm : s * (bs.length / s) + bs.length % s = bs.length := Nat.div_add_mod _ _
      have hmlt : bs.length % s < s := Nat.mod_lt _ hs
      have hmul : bs.length / s * s = s * (bs.length / s) := Nat.mul_comm _ _
      have hlt : bs.length / s * s < bs.length := by omega
      have hpf := persist_block_files_mid_chunk (chain_storage s bs) s b
        (by rw [hnum]; exact hmod)
        ((List.range (bs.length / s)).map (fun i =>
          (make_block_chunk_filename (i * s) ((i + 1) * s - 1), (bs.drop (i * s)).take s)))
        (bs.drop (bs.length / s * s))
        (by rw [hfiles, hnum]; exact expectedFiles_partial_decomp s bs hs hmod)
        (by rw [hnum]; exact prefix_key_absent s bs (bs.length - 1) hs (by omega))
      rw [hpf, hnum, expectedFiles_snoc_partial s bs b hs hmod]

end FileBlockchain

namespace FileBlockchain

theorem cacheGet_coherent (bs : List Blk) (cache : BlkCache) (n : Nat) (b : Blk)
    (hcoh : CacheCoherent bs cache) (h : cacheGet cache n = some b) :
    bs.get? n = some b := by
  unfold cacheGet at h
  cases hfind : cache.find? (fun e => e.1 == n) with
  | none => rw [hfind] at h; simp at h
  | some e =>
    rw [hfind] at h
    have h2 : e.2 = b := by simpa using h
    have he : e ∈ cache := List.mem_of_find?_eq_some hfind
    have hk : e.1 = n := by simpa using List.find?_some hfind
    have hmem := hcoh e he
    rw [hk, h2] at hmem
    exact hmem

theorem seq_number_of_get? (bs : List Blk) (n : Nat) (b : Blk) (hseq : SeqNumbered bs)
    (h : bs.get? n = some b) : b.number = n ∧ n < bs.length := by
  rw [List.get?_eq_some] at h
  obtain ⟨hn, hget⟩ := h
  exact ⟨hget ▸ hseq n hn, hn⟩

theorem blkAt_of_get? (bs : List Blk) (n : Nat) (b : Blk) (h : bs.get? n = some b) :
    blkAt bs n = b := by
  unfold blkAt
  rw [h]
  rfl

theorem blkAt_lt (bs : List Blk) (k : Nat) (h : k < bs.length) : blkAt bs k = bs[k] := by
  unfold blkAt
  rw [List.get?_eq_getElem?, List.getElem?_eq_getElem h]
  rfl

theorem blkAt_number (bs : List Blk) (hseq : SeqNumbered bs) (k : Nat) (h : k < bs.length) :
    (blkAt bs k).number = k := by
  rw [blkAt_lt bs k h]
  exact hseq k h

theorem yield_go_spec (bs : List Blk) (hseq : SeqNumbered bs) (ns : List Nat) :
    ∀ cache : BlkCache, CacheCoherent bs cache →
    (yield_blocks_from_cache_go cache ns).map Blk.number =
      ns.take (yield_blocks_from_cache_go cache ns).length ∧
    yield_blocks_from_cache_go cache ns =
      (ns.take (yield_blocks_from_cache_go cache ns).length).map (blkAt bs) := by
  induction ns with
  | nil => intro cache _; exact ⟨rfl, rfl⟩
  | cons n rest ih =>
    intro cache hcoh
    cases hget : cacheGet cache n with
    | none =>
      have hstep : yield_blocks_from_cache_go cache (n :: rest) = [] := by
        unfold yield_blocks_from_cache_go; rw [hget]
      rw [hstep]
      exact ⟨rfl, rfl⟩
    | some b =>
      have hstep : yield_blocks_from_cache_go cache (n :: rest) =
          b :: yield_blocks_from_cache_go cache rest := by
        show (match cacheGet cache n with
          | none => []
          | some b => b :: yield_blocks_from_cache_go cache rest) = _
        rw [hget]
      have hb := cacheGet_coherent bs cache n b hcoh hget
      have hnum := (seq_number_of_get? bs n b hseq hb).1
      have hat := blkAt_of_get? bs n b hb
      obtain ⟨ih1, ih2⟩ := ih cache hcoh
      rw [hstep]
      constructor
      · simp only [List.map_cons, List.length_cons, List.take_succ_cons]
        rw [hnum, ih1]
      · simp only [List.length_cons, List.take_succ_cons, List.map_cons]
        rw [hat]
        exact congrArg (List.cons b) ih2

theorem foldl_insert_coherent (bs : List Blk) (l : List Blk) :
    ∀ cache : BlkCache, CacheCoherent bs cache →
    (∀ b ∈ l, bs.get? b.number = some b) →
    CacheCoherent bs (l.foldl (fun c b => cacheInsert c b.number b) cache) := by
  induction l with
  | nil => intro cache hcoh _; exact hcoh
  | cons b t ih =>
    intro cache hcoh hl
    rw [List.foldl_cons]
    apply ih
    · intro e he
      rcases List.mem_cons.mp he with heq | hmem
      · subst heq
        exact hl b (List.mem_cons_self b t)
      · exact hcoh e hmem
    · intro b' hb'
      exact hl b' (List.mem_cons_of_mem b hb')

theorem drop_take_as_range_map (bs : List Blk) (a t : Nat) :
    (bs.drop a).take t = (List.range' a (min t (bs.length - a))).map (blkAt bs) := by
  apply List.ext_getElem
  · simp only [List.length_take, List.length_drop, List.length_map, List.length_range']
  · intro i h1 h2
    simp only [List.length_take, List.length_drop] at h1
    rw [List.getElem_take, List.getElem_drop, List.getElem_map, List.getElem_range'_1,
      blkAt_lt bs (a + i) (by omega)]

theorem range'_filter_ge_all (a k v : Nat) (hv : v ≤ a) :
    (List.range' a k).filter (fun n => decide (v ≤ n)) = List.range' a k := by
  rw [List.filter_eq_self]
  intro n hn
  rw [List.mem_range'_1] at hn
  simp only [decide_eq_true_eq]
  omega

theorem range'_filter_ge (a k v : Nat) (hv : a ≤ v) :
    (List.range' a k).filter (fun n => decide (v ≤ n)) = List.range' v (a + k - v) := by
  induction k generalizing a with
  | zero =>
    simp only [List.range'_zero, List.filter_nil]
    rw [show a + 0 - v = 0 from by omega, List.range'_zero]
  | succ k ih =>
    rw [List.range'_succ a k 1]
    by_cases hva : v ≤ a
    · have hav : a = v := le_antisymm hv hva
      subst hav
      rw [List.filter_cons_of_pos (by simp)]
      rw [range'_filter_ge_all (a + 1) k a (by omega)]
      rw [show a + (k + 1) - a = k + 1 from by omega]
      rw [List.range'_succ a k 1]
    · rw [List.filter_cons_of_neg (by simp; omega)]
      rw [ih (a + 1) (by omega)]
      congr 1
      omega

theorem range'_filter_le (a k v : Nat) :
    (List.range' a k).filter (fun n => decide (n ≤ v)) =
      List.range' a (min k (v + 1 - a)) := by
  induction k generalizing a with
  | zero => simp
  | succ k ih =>
    rw [List.range'_succ a k 1]
    by_cases hav : a ≤ v
    · rw [List.filter_cons_of_pos (by simp; omega)]
      rw [ih (a + 1)]
      rw [show min (k + 1) (v + 1 - a) = min k (v + 1 - (a + 1)) + 1 from by omega]
      rw [List.range'_succ a _ 1]
    · rw [List.filter_cons_of_neg (by simp; omega)]
      rw [show min (k + 1) (v + 1 - a) = 0 from by omega, List.range'_zero]
      rw [List.filter_eq_nil_iff]
      intro n hn
      rw [List.mem_range'_1] at hn
      simp only [decide_eq_true_eq]
      omega

end FileBlockchain

theorem assoc_find?_of_mem_nodup {α : Type} (l : List (String × α)) (k : String) (v : α)
    (hmem : (k, v) ∈ l) (hnodup : (l.map Prod.fst).Nodup) :
    l.find? (fun e => e.1 == k) = some (k, v) := by
  induction l with
  | nil => cases hmem
  | cons e t ih =>
    simp only [List.map_cons, List.nodup_cons] at hnodup
    rcases List.mem_cons.mp hmem with heq | hmem'
    · subst heq
      rw [List.find?_cons_of_pos _ (by simp)]
    · have hkt : k ∈ t.map Prod.fst := List.mem_map_of_mem Prod.fst hmem'
      have hne : ¬ ((fun e : String × α => e.1 == k) e = true) := by
        simp only [beq_iff_eq]
        intro h
        exact hnodup.1 (h ▸ hkt)
      rw [@List.find?_cons_of_neg _ (fun e : String × _ => e.1 == k) e t hne]
      exact ih hmem' hnodup.2

namespace FileBlockchain

theorem range'_append_1 (a m n : Nat) :
    List.range' a m ++ List.range' (a + m) n = List.range' a (m + n) := by
  have h := List.range'_append a m n 1
  simpa [Nat.add_comm] using h

theorem get?_blkAt_self (bs : List Blk) (n : Nat) (h : n < bs.length) :
    bs.get? n = some (blkAt bs n) := by
  rw [blkAt_lt bs n h, List.get?_eq_getElem?]
  exact List.getElem?_eq_getElem h

theorem lookup_expectedFiles (s : Nat) (bs : List Blk) (st : BlockStorage) (hs : 0 < s)
    (hfiles : st.files = expectedFiles s bs) (i : Nat)
    (hi : i < (bs.length + s - 1) / s) :
    st.lookup (make_block_chunk_filename (i * s) (min ((i + 1) * s) bs.length - 1)) =
      some ((bs.drop (i * s)).take s) := by
  have hmem : (make_block_chunk_filename (i * s) (min ((i + 1) * s) bs.length - 1),
      (bs.drop (i * s)).take s) ∈ expectedFiles s bs := by
    unfold expectedFiles
    exact List.mem_map.mpr ⟨i, List.mem_range.mpr hi, rfl⟩
  unfold BlockStorage.lookup
  rw [hfiles]
  rw [assoc_find?_of_mem_nodup (expectedFiles s bs) _ _ hmem
    (expectedFiles_keys_nodup s bs hs)]
  rfl

end FileBlockchain

namespace FileBlockchain

theorem yield_file_forward (s : Nat) (bs : List Blk) (st : BlockStorage) (cache : BlkCache)
    (hs : 0 < s) (hseq : SeqNumbered bs) (hcoh : CacheCoherent bs cache)
    (hfiles : st.files = expectedFiles s bs) (i : Nat)
    (hi : i < (bs.length + s - 1) / s) (v : Nat) (start : Option Nat)
    (hv1 : i * s ≤ v) (hv2 : v < min ((i + 1) * s) bs.length)
    (hstart : start.getD (i * s) = v) :
    ∃ cache',
      yield_blocks_from_file_cached st cache
        (make_block_chunk_filename (i * s) (min ((i + 1) * s) bs.length - 1))
        .forward start =
        some ((List.range' v (min ((i + 1) * s) bs.length - v)).map (blkAt bs), cache') ∧
      CacheCoherent bs cache' := by
  have hsucc : (i + 1) * s = i * s + s := Nat.succ_mul i s
  have him : i * s < bs.length := lt_ceil_imp s bs.length i hs hi
  have hparse := expectedFiles_parse s bs.length i hs hi
  have hnorm : min ((i + 1) * s) bs.length - 1 + 1 - v =
      min ((i + 1) * s) bs.length - v := by omega
  obtain ⟨hmap, hlist⟩ := yield_go_spec bs hseq
    (List.range' v (min ((i + 1) * s) bs.length - 1 + 1 - v)) cache hcoh
  rw [hnorm] at hmap hlist
  have hlen : (yield_blocks_from_cache_go cache
      (List.range' v (min ((i + 1) * s) bs.length - v))).length ≤
      min ((i + 1) * s) bs.length - v := by
    have hcong := congrArg List.length hlist
    rw [List.length_map, List.length_take, List.length_range'] at hcong
    omega
  by_cases hcase : (yield_blocks_from_cache_go cache
      (List.range' v (min ((i + 1) * s) bs.length - v))).length =
      min ((i + 1) * s) bs.length - v
  · refine ⟨cache, ?_, hcoh⟩
    simp only [yield_blocks_from_file_cached, yield_blocks_from_cache, Direction.val,
      hparse, hstart]
    rw [hnorm]
    rw [if_pos hmap]
    rw [if_neg ?cond]
    case cond =>
      rintro ⟨-, h2⟩
      rw [hcase] at h2
      omega
    rw [hlist, List.take_of_length_le (by rw [List.length_range']; omega)]
  · have hlt : (yield_blocks_from_cache_go cache
        (List.range' v (min ((i + 1) * s) bs.length - v))).length <
        min ((i + 1) * s) bs.length - v := lt_of_le_of_ne hlen hcase
    set L := (yield_blocks_from_cache_go cache
      (List.range' v (min ((i + 1) * s) bs.length - v))).length with hL
    have hlook := lookup_expectedFiles s bs st hs hfiles i hi
    have hpc : ∀ n ∈ List.range' (i * s) (min ((i + 1) * s) bs.length - i * s),
        ((fun b => decide (v + L ≤ b.number)) ∘ blkAt bs) n =
          (fun n => decide (v + L ≤ n)) n := by
      intro n hn
      rw [List.mem_range'_1] at hn
      show decide (v + L ≤ (blkAt bs n).number) = decide (v + L ≤ n)
      rw [blkAt_number bs hseq n (by omega)]
    have hfile : yield_blocks_from_file st cache
        (make_block_chunk_filename (i * s) (min ((i + 1) * s) bs.length - 1))
        .forward (some (v + L)) =
        some ((List.range' (v + L) (min ((i + 1) * s) bs.length - (v + L))).map (blkAt bs),
          ((List.range' (v + L) (min ((i + 1) * s) bs.length - (v + L))).map
            (blkAt bs)).foldl (fun c b => cacheInsert c b.number b) cache) := by
      simp only [yield_blocks_from_file, hlook]
      rw [drop_take_as_range_map bs (i * s) s]
      rw [show min s (bs.length - i * s) = min ((i + 1) * s) bs.length - i * s from by omega]
      rw [List.filter_map]
      rw [List.filter_congr hpc]
      rw [range'_filter_ge (i * s) (min ((i + 1) * s) bs.length - i * s) (v + L) (by omega)]
      rw [show i * s + (min ((i + 1) * s) bs.length - i * s) - (v + L) =
        min ((i + 1) * s) bs.length - (v + L) from by omega]
    refine ⟨((List.range' (v + L) (min ((i + 1) * s) bs.length - (v + L))).map
      (blkAt bs)).foldl (fun c b => cacheInsert c b.number b) cache, ?_, ?_⟩
    · simp only [yield_blocks_from_file_cached, yield_blocks_from_cache, Direction.val,
        hparse, hstart]
      rw [hnorm]
      rw [if_pos hmap]
      rw [if_pos ?cond]
      case cond =>
        constructor
        · omega
        · rw [← hL]
          omega
      rw [show ((v : Int) + 1 * (L : Int)).toNat = v + L from by omega]
      rw [hfile]
      show some (yield_blocks_from_cache_go cache
          (List.range' v (min ((i + 1) * s) bs.length - v)) ++
        (List.range' (v + L) (min ((i + 1) * s) bs.length - (v + L))).map (blkAt bs), _) =
        _
      rw [hlist]
      rw [show min ((i + 1) * s) bs.length - v =
        L + (min ((i + 1) * s) bs.length - v - L) from by omega]
      rw [← range'_append_1 v L (min ((i + 1) * s) bs.length - v - L)]
      rw [List.take_append_of_le_length (by rw [List.length_range']),
        List.take_of_length_le (by rw [List.length_range'])]
      rw [← List.map_append]
      rw [show min ((i + 1) * s) bs.length - (v + L) =
        min ((i + 1) * s) bs.length - v - L from by omega]
    · apply foldl_insert_coherent bs _ cache hcoh
      intro b hb
      rw [List.mem_map] at hb
      obtain ⟨n, hn, rfl⟩ := hb
      rw [List.mem_range'_1] at hn
      have hnm : n < bs.length := by omega
      rw [blkAt_number bs hseq n hnm]
      exact get?_blkAt_self bs n hnm

end FileBlockchain

namespace FileBlockchain

theorem yield_file_backward (s : Nat) (bs : List Blk) (st : BlockStorage) (cache : BlkCache)
    (hs : 0 < s) (hseq : SeqNumbered bs) (hcoh : CacheCoherent bs cache)
    (hfiles : st.files = expectedFiles s bs) (i : Nat)
    (hi : i < (bs.length + s - 1) / s) :
    ∃ cache',
      yield_blocks_from_file_cached st cache
        (make_block_chunk_filename (i * s) (min ((i + 1) * s) bs.length - 1))
        .backward none =
        some ((((List.range' (i * s) (min ((i + 1) * s) bs.length - i * s)).map
          (blkAt bs)).reverse, cache')) ∧
      CacheCoherent bs cache' := by
  have hsucc : (i + 1) * s = i * s + s := Nat.succ_mul i s
  have him : i * s < bs.length := lt_ceil_imp s bs.length i hs hi
  have hparse := expectedFiles_parse s bs.length i hs hi
  have hnorm : min ((i + 1) * s) bs.length - 1 + 1 - i * s =
      min ((i + 1) * s) bs.length - i * s := by omega
  obtain ⟨hmap, hlist⟩ := yield_go_spec bs hseq
    ((List.range' (i * s) (min ((i + 1) * s) bs.length - 1 + 1 - i * s)).reverse) cache hcoh
  rw [hnorm] at hmap hlist
  set L := (yield_blocks_from_cache_go cache
    ((List.range' (i * s) (min ((i + 1) * s) bs.length - i * s)).reverse)).length with hL
  have hlen : L ≤ min ((i + 1) * s) bs.length - i * s := by
    have hcong := congrArg List.length hlist
    rw [List.length_map, List.length_take, List.length_reverse, List.length_range'] at hcong
    omega
  have hsplit : List.range' (i * s) (min ((i + 1) * s) bs.length - i * s - L) ++
      List.range' (i * s + (min ((i + 1) * s) bs.length - i * s - L)) L =
      List.range' (i * s) (min ((i + 1) * s) bs.length - i * s) := by
    rw [range'_append_1]
    congr 1
    omega
  by_cases hcase : L = min ((i + 1) * s) bs.length - i * s
  · refine ⟨cache, ?_, hcoh⟩
    simp only [yield_blocks_from_file_cached, yield_blocks_from_cache, Direction.val,
      hparse, Option.getD_none]
    rw [hnorm]
    rw [if_pos hmap]
    rw [if_neg ?cond]
    case cond =>
      rintro ⟨h1, -⟩
      rw [← hL, hcase] at h1
      omega
    rw [hlist, List.take_of_length_le
      (by rw [List.length_reverse, List.length_range']; omega)]
    rw [List.map_reverse]
  · have hlt : L < min ((i + 1) * s) bs.length - i * s := lt_of_le_of_ne hlen hcase
    have hlook := lookup_expectedFiles s bs st hs hfiles i hi
    have hpc : ∀ n ∈ List.range' (i * s) (min ((i + 1) * s) bs.length - i * s),
        ((fun b => decide (b.number ≤ min ((i + 1) * s) bs.length - 1 - L)) ∘ blkAt bs) n =
          (fun n => decide (n ≤ min ((i + 1) * s) bs.length - 1 - L)) n := by
      intro n hn
      rw [List.mem_range'_1] at hn
      show decide ((blkAt bs n).number ≤ _) = _
      rw [blkAt_number bs hseq n (by omega)]
    have htakeRev : (List.range' (i * s) (min ((i + 1) * s) bs.length - i * s)).reverse.take
        L = (List.range' (i * s + (min ((i + 1) * s) bs.length - i * s - L)) L).reverse := by
      rw [← hsplit, List.reverse_append]
      rw [List.take_append_of_le_length (by rw [List.length_reverse, List.length_range']),
        List.take_of_length_le (by rw [List.length_reverse, List.length_range'])]
    have hfile : yield_blocks_from_file st cache
        (make_block_chunk_filename (i * s) (min ((i + 1) * s) bs.length - 1))
        .backward (some (min ((i + 1) * s) bs.length - 1 - L)) =
        some ((((List.range' (i * s) (min ((i + 1) * s) bs.length - i * s - L)).map
            (blkAt bs)).reverse,
          (((List.range' (i * s) (min ((i + 1) * s) bs.length - i * s - L)).map
            (blkAt bs)).reverse).foldl (fun c b => cacheInsert c b.number b) cache)) := by
      simp only [yield_blocks_from_file, hlook]
      rw [drop_take_as_range_map bs (i * s) s]
      rw [show min s (bs.length - i * s) = min ((i + 1) * s) bs.length - i * s from by omega]
      rw [List.filter_reverse]
      rw [List.filter_map]
      rw [List.filter_congr hpc]
      rw [range'_filter_le (i * s) (min ((i + 1) * s) bs.length - i * s)
        (min ((i + 1) * s) bs.length - 1 - L)]
      rw [show min (min ((i + 1) * s) bs.length - i * s)
        (min ((i + 1) * s) bs.length - 1 - L + 1 - i * s) =
        min ((i + 1) * s) bs.length - i * s - L from by omega]
    refine ⟨(((List.range' (i * s) (min ((i + 1) * s) bs.length - i * s - L)).map
      (blkAt bs)).reverse).foldl (fun c b => cacheInsert c b.number b) cache, ?_, ?_⟩
    · simp only [yield_blocks_from_file_cached, yield_blocks_from_cache, Direction.val,
        hparse, Option.getD_none]
      rw [hnorm]
      rw [if_pos hmap]
      rw [if_pos ?cond]
      case cond =>
        constructor
        · rw [← hL]
          omega
        · rw [← hL]
          omega
      rw [show (((min ((i + 1) * s) bs.length - 1 : Nat) : Int) + -1 * (L : Int)).toNat =
        min ((i + 1) * s) bs.length - 1 - L from by omega]
      rw [hfile]
      show some (yield_blocks_from_cache_go cache
          ((List.range' (i * s) (min ((i + 1) * s) bs.length - i * s)).reverse) ++
        ((List.range' (i * s) (min ((i + 1) * s) bs.length - i * s - L)).map
          (blkAt bs)).reverse, _) = _
      rw [hlist, htakeRev]
      rw [List.map_reverse, ← List.reverse_append, ← List.map_append, hsplit]
    · apply foldl_insert_coherent bs _ cache hcoh
      intro b hb
      rw [List.mem_reverse, List.mem_map] at hb
      obtain ⟨n, hn, rfl⟩ := hb
      rw [List.mem_range'_1] at hn
      have hnm : n < bs.length := by omega
      rw [blkAt_number bs hseq n hnm]
      exact get?_blkAt_self bs n hnm

end FileBlockchain

namespace FileBlockchain

theorem ceil_mul_ge (s m : Nat) (hs : 0 < s) : m ≤ (m + s - 1) / s * s := by
  have h1 := Nat.div_add_mod (m + s - 1) s
  have h2 : (m + s - 1) % s < s := Nat.mod_lt _ hs
  have h3 : (m + s - 1) / s * s = s * ((m + s - 1) / s) := Nat.mul_comm _ _
  omega

theorem join_range_slices (s m : Nat) (hs : 0 < s) :
    ∀ q, q ≤ (m + s - 1) / s →
    ((List.range q).map (fun i =>
      List.range' (i * s) (min ((i + 1) * s) m - i * s))).flatten =
      List.range' 0 (min (q * s) m) := by
  intro q
  induction q with
  | zero => intro _; simp
  | succ q ih =>
    intro hq
    have hqs : q * s < m := lt_ceil_imp s m q hs (by omega)
    have hsucc : (q + 1) * s = q * s + s := Nat.succ_mul q s
    rw [List.range_succ, List.map_append, List.flatten_append, ih (by omega)]
    simp only [List.map_cons, List.map_nil, List.flatten_cons, List.flatten_nil,
      List.append_nil]
    rw [show min (q * s) m = q * s from by omega]
    have happ := range'_append_1 0 (q * s) (min ((q + 1) * s) m - q * s)
    rw [Nat.zero_add] at happ
    rw [happ]
    congr 1
    omega

theorem range'_map_blkAt (bs : List Blk) :
    (List.range' 0 bs.length).map (blkAt bs) = bs := by
  apply List.ext_getElem
  · simp
  · intro i h1 h2
    simp only [List.getElem_map, List.getElem_range'_1, Nat.zero_add]
    exact blkAt_lt bs i h2

theorem yield_chunks_forward_spec (s : Nat) (bs : List Blk) (st : BlockStorage)
    (hs : 0 < s) (hseq : SeqNumbered bs) (hfiles : st.files = expectedFiles s bs) :
    ∀ (idxs : List Nat) (cache : BlkCache), CacheCoherent bs cache →
    (∀ i ∈ idxs, i < (bs.length + s - 1) / s) →
    ∃ cache',
      yield_chunks st .forward (idxs.map (fun i =>
        make_block_chunk_filename (i * s) (min ((i + 1) * s) bs.length - 1))) cache =
      some (((idxs.map (fun i =>
        (List.range' (i * s) (min ((i + 1) * s) bs.length - i * s)).map
          (blkAt bs))).flatten, cache')) ∧
      CacheCoherent bs cache' := by
  intro idxs
  induction idxs with
  | nil => intro cache hcoh _; exact ⟨cache, rfl, hcoh⟩
  | cons i rest ih =>
    intro cache hcoh hbound
    have hii : i < (bs.length + s - 1) / s := hbound i (List.mem_cons_self i rest)
    have hsucc : (i + 1) * s = i * s + s := Nat.succ_mul i s
    have him : i * s < bs.length := lt_ceil_imp s bs.length i hs hii
    obtain ⟨cache₁, h₁, hcoh₁⟩ := yield_file_forward s bs st cache hs hseq hcoh hfiles i
      hii (i * s) none (le_refl _) (by omega) rfl
    obtain ⟨cache₂, h₂, hcoh₂⟩ := ih cache₁ hcoh₁
      (fun j hj => hbound j (List.mem_cons_of_mem i hj))
    refine ⟨cache₂, ?_, hcoh₂⟩
    simp only [List.map_cons, yield_chunks, h₁, h₂, List.flatten_cons]

theorem yield_chunks_backward_spec (s : Nat) (bs : List Blk) (st : BlockStorage)
    (hs : 0 < s) (hseq : SeqNumbered bs) (hfiles : st.files = expectedFiles s bs) :
    ∀ (idxs : List Nat) (cache : BlkCache), CacheCoherent bs cache →
    (∀ i ∈ idxs, i < (bs.length + s - 1) / s) →
    ∃ cache',
      yield_chunks st .backward (idxs.map (fun i =>
        make_block_chunk_filename (i * s) (min ((i + 1) * s) bs.length - 1))) cache =
      some (((idxs.map (fun i =>
        ((List.range' (i * s) (min ((i + 1) * s) bs.length - i * s)).map
          (blkAt bs)).reverse)).flatten, cache')) ∧
      CacheCoherent bs cache' := by
  intro idxs
  induction idxs with
  | nil => intro cache hcoh _; exact ⟨cache, rfl, hcoh⟩
  | cons i rest ih =>
    intro cache hcoh hbound
    have hii : i < (bs.length + s - 1) / s := hbound i (List.mem_cons_self i rest)
    obtain ⟨cache₁, h₁, hcoh₁⟩ := yield_file_backward s bs st cache hs hseq hcoh hfiles i hii
    obtain ⟨cache₂, h₂, hcoh₂⟩ := ih cache₁ hcoh₁
      (fun j hj => hbound j (List.mem_cons_of_mem i hj))
    refine ⟨cache₂, ?_, hcoh₂⟩
    simp only [List.map_cons, yield_chunks, h₁, h₂, List.flatten_cons]

end FileBlockchain

namespace FileBlockchain

theorem flatten_slices_eq (s : Nat) (bs : List Blk) (hs : 0 < s) :
    ((List.range ((bs.length + s - 1) / s)).map (fun i =>
      (List.range' (i * s) (min ((i + 1) * s) bs.length - i * s)).map
        (blkAt bs))).flatten = bs := by
  have hmm : (List.range ((bs.length + s - 1) / s)).map (fun i =>
      (List.range' (i * s) (min ((i + 1) * s) bs.length - i * s)).map (blkAt bs)) =
      ((List.range ((bs.length + s - 1) / s)).map (fun i =>
        List.range' (i * s) (min ((i + 1) * s) bs.length - i * s))).map
        (List.map (blkAt bs)) := by
    rw [List.map_map]
    rfl
  rw [hmm, ← List.map_flatten, join_range_slices s bs.length hs _ (le_refl _)]
  rw [show min (((bs.length + s - 1) / s) * s) bs.length = bs.length from by
    have := ceil_mul_ge s bs.length hs
    omega]
  exact range'_map_blkAt bs

theorem yield_blocks_chain (s : Nat) (bs : List Blk) (cache : BlkCache)
    (hs : 0 < s) (hseq : SeqNumbered bs) (hcoh : CacheCoherent bs cache) :
    ∃ cache', yield_blocks (chain_storage s bs) cache = some ((bs, cache')) ∧
      CacheCoherent bs cache' := by
  have hfiles := chain_storage_files s bs hs hseq
  have hlist : list_block_directory (chain_storage s bs) .forward =
      (List.range ((bs.length + s - 1) / s)).map (fun i =>
        make_block_chunk_filename (i * s) (min ((i + 1) * s) bs.length - 1)) := by
    rw [list_block_directory_forward s bs hs _ hfiles, expectedFiles_map_fst]
  obtain ⟨cache', hy, hcoh'⟩ := yield_chunks_forward_spec s bs _ hs hseq hfiles
    (List.range ((bs.length + s - 1) / s)) cache hcoh (fun i hi => List.mem_range.mp hi)
  refine ⟨cache', ?_, hcoh'⟩
  unfold yield_blocks
  rw [hlist, hy, flatten_slices_eq s bs hs]

theorem yield_blocks_reversed_chain (s : Nat) (bs : List Blk) (cache : BlkCache)
    (hs : 0 < s) (hseq : SeqNumbered bs) (hcoh : CacheCoherent bs cache) :
    ∃ cache', yield_blocks_reversed (chain_storage s bs) cache =
      some ((bs.reverse, cache')) ∧
      CacheCoherent bs cache' := by
  have hfiles := chain_storage_files s bs hs hseq
  have hlist : list_block_directory (chain_storage s bs) .backward =
      ((List.range ((bs.length + s - 1) / s)).reverse).map (fun i =>
        make_block_chunk_filename (i * s) (min ((i + 1) * s) bs.length - 1)) := by
    rw [list_block_directory_backward s bs hs _ hfiles, expectedFiles_map_fst]
    rw [← List.map_reverse]
  obtain ⟨cache', hy, hcoh'⟩ := yield_chunks_backward_spec s bs _ hs hseq hfiles
    ((List.range ((bs.length + s - 1) / s)).reverse) cache hcoh
    (fun i hi => List.mem_range.mp (List.mem_reverse.mp hi))
  refine ⟨cache', ?_, hcoh'⟩
  have hflat : (((List.range ((bs.length + s - 1) / s)).reverse).map (fun i =>
      ((List.range' (i * s) (min ((i + 1) * s) bs.length - i * s)).map
        (blkAt bs)).reverse)).flatten = bs.reverse := by
    have hrf := List.reverse_flatten ((List.range ((bs.length + s - 1) / s)).map (fun i =>
      (List.range' (i * s) (min ((i + 1) * s) bs.length - i * s)).map (blkAt bs)))
    rw [List.map_map, ← List.map_reverse] at hrf
    rw [show (((List.range ((bs.length + s - 1) / s)).reverse).map (fun i =>
        ((List.range' (i * s) (min ((i + 1) * s) bs.length - i * s)).map
          (blkAt bs)).reverse)) =
      (((List.range ((bs.length + s - 1) / s)).reverse).map (List.reverse ∘ (fun i =>
        (List.range' (i * s) (min ((i + 1) * s) bs.length - i * s)).map
          (blkAt bs)))) from rfl]
    rw [← hrf, flatten_slices_eq s bs hs]
  unfold yield_blocks_reversed
  rw [hlist, hy, hflat]

end FileBlockchain

/-! ### Claim C6: bidirectional enumeration consistency -/

open FileBlockchain in
/-- C6: for every store state reachable by a sequence of `add_block` calls
(`chain_storage` over the dense-numbered blocks `bs`) and for every
coherent content of the blocks LRU cache, `yield_blocks` succeeds and
produces exactly the reverse of the sequence produced by
`yield_blocks_reversed` (namely the full chain `bs` in block order). -/
theorem claim_c6_bidirectional_consistency (s : Nat) (bs : List Blk) (cache : BlkCache)
    (hs : 0 < s) (hseq : SeqNumbered bs) (hcoh : CacheCoherent bs cache) :
    ∃ out₁ out₂,
      yield_blocks (chain_storage s bs) cache = some out₁ ∧
      yield_blocks_reversed (chain_storage s bs) cache = some out₂ ∧
      out₁.1 = out₂.1.reverse ∧ out₁.1 = bs := by
  obtain ⟨c₁, h₁, -⟩ := yield_blocks_chain s bs cache hs hseq hcoh
  obtain ⟨c₂, h₂, -⟩ := yield_blocks_reversed_chain s bs cache hs hseq hcoh
  exact ⟨(bs, c₁), (bs.reverse, c₂), h₁, h₂, (List.reverse_reverse bs).symm, rfl⟩

open FileBlockchain in
/-- C6 witness: chunk size 2 over the dense chain of blocks 0, 1, 2, with
block 1 already in the LRU cache. -/
theorem claim_c6_bidirectional_consistency_witness :
    (0 : Nat) < 2 ∧
    SeqNumbered [⟨0, 10⟩, ⟨1, 11⟩, ⟨2, 12⟩] ∧
    CacheCoherent [⟨0, 10⟩, ⟨1, 11⟩, ⟨2, 12⟩] [(1, ⟨1, 11⟩)] ∧
    ∃ out₁ out₂,
      yield_blocks (chain_storage 2 [⟨0, 10⟩, ⟨1, 11⟩, ⟨2, 12⟩]) [(1, ⟨1, 11⟩)] =
        some out₁ ∧
      yield_blocks_reversed (chain_storage 2 [⟨0, 10⟩, ⟨1, 11⟩, ⟨2, 12⟩]) [(1, ⟨1, 11⟩)] =
        some out₂ ∧
      out₁.1 = out₂.1.reverse ∧ out₁.1 = [⟨0, 10⟩, ⟨1, 11⟩, ⟨2, 12⟩] :=
  ⟨by decide, by unfold SeqNumbered; decide, by unfold CacheCoherent; decide,
    claim_c6_bidirectional_consistency 2 [⟨0, 10⟩, ⟨1, 11⟩, ⟨2, 12⟩] [(1, ⟨1, 11⟩)]
      (by decide) (by unfold SeqNumbered; decide) (by unfold CacheCoherent; decide)⟩

namespace FileBlockchain

theorem yield_from_chunks_spec (s : Nat) (bs : List Blk) (st : BlockStorage) (n : Nat)
    (hs : 0 < s) (hseq : SeqNumbered bs) (hfiles : st.files = expectedFiles s bs) :
    ∀ (idxs : List Nat) (cache : BlkCache), CacheCoherent bs cache →
    (∀ i ∈ idxs, i < (bs.length + s - 1) / s) →
    ∃ cache',
      yield_blocks_from_chunks st n (idxs.map (fun i =>
        make_block_chunk_filename (i * s) (min ((i + 1) * s) bs.length - 1))) cache =
      some ((((idxs.filter (fun i => decide (n < min ((i + 1) * s) bs.length))).map
        (fun i =>
          (List.range' (max (i * s) n) (min ((i + 1) * s) bs.length - max (i * s) n)).map
            (blkAt bs))).flatten, cache')) ∧
      CacheCoherent bs cache' := by
  intro idxs
  induction idxs with
  | nil => intro cache hcoh _; exact ⟨cache, rfl, hcoh⟩
  | cons i rest ih =>
    intro cache hcoh hbound
    have hii := hbound i (List.mem_cons_self i rest)
    have hsucc : (i + 1) * s = i * s + s := Nat.succ_mul i s
    have him : i * s < bs.length := lt_ceil_imp s bs.length i hs hii
    have hparse := expectedFiles_parse s bs.length i hs hii
    by_cases hskip : min ((i + 1) * s) bs.length - 1 < n
    · obtain ⟨cache', h', hcoh'⟩ := ih cache hcoh
        (fun j hj => hbound j (List.mem_cons_of_mem i hj))
      refine ⟨cache', ?_, hcoh'⟩
      simp only [List.map_cons, yield_blocks_from_chunks, hparse]
      rw [if_pos hskip]
      rw [List.filter_cons_of_neg (by simp; omega)]
      exact h'
    · push_neg at hskip
      have hnE : n < min ((i + 1) * s) bs.length := by omega
      obtain ⟨cache₁, h₁, hcoh₁⟩ := yield_file_forward s bs st cache hs hseq hcoh hfiles i
        hii (max (i * s) n) (some (max (i * s) n)) (le_max_left _ _) (by omega) rfl
      obtain ⟨cache₂, h₂, hcoh₂⟩ := ih cache₁ hcoh₁
        (fun j hj => hbound j (List.mem_cons_of_mem i hj))
      refine ⟨cache₂, ?_, hcoh₂⟩
      simp only [List.map_cons, yield_blocks_from_chunks, hparse]
      rw [if_neg (by omega : ¬ (min ((i + 1) * s) bs.length - 1 < n))]
      simp only [h₁, h₂]
      rw [List.filter_cons_of_pos (by simp; omega)]
      simp only [List.map_cons, List.flatten_cons]

end FileBlockchain

namespace FileBlockchain

theorem get_block_by_number_chain (s : Nat) (bs : List Blk) (cache : BlkCache) (n : Nat)
    (hs : 0 < s) (hseq : SeqNumbered bs) (hcoh : CacheCoherent bs cache) :
    get_block_by_number (chain_storage s bs) cache n = bs.get? n := by
  have hfiles := chain_storage_files s bs hs hseq
  have hlist : list_block_directory (chain_storage s bs) .forward =
      (List.range ((bs.length + s - 1) / s)).map (fun i =>
        make_block_chunk_filename (i * s) (min ((i + 1) * s) bs.length - 1)) := by
    rw [list_block_directory_forward s bs hs _ hfiles, expectedFiles_map_fst]
  obtain ⟨cache', hy, -⟩ := yield_from_chunks_spec s bs _ n hs hseq hfiles
    (List.range ((bs.length + s - 1) / s)) cache hcoh (fun i hi => List.mem_range.mp hi)
  have hyfrom : yield_blocks_from (chain_storage s bs) cache n =
      some (((((List.range ((bs.length + s - 1) / s)).filter
        (fun i => decide (n < min ((i + 1) * s) bs.length))).map (fun i =>
          (List.range' (max (i * s) n)
            (min ((i + 1) * s) bs.length - max (i * s) n)).map (blkAt bs))).flatten,
        cache')) := by
    unfold yield_blocks_from
    rw [hlist]
    exact hy
  unfold get_block_by_number
  cases hcg : cacheGet cache n with
  | some b =>
    show some b = bs.get? n
    exact (cacheGet_coherent bs cache n b hcoh hcg).symm
  | none =>
    simp only [hyfrom]
    by_cases hnm : n < bs.length
    · have hr : n % s < s := Nat.mod_lt n hs
      have hdm : s * (n / s) + n % s = n := Nat.div_add_mod n s
      have hims : n / s * s = s * (n / s) := Nat.mul_comm _ _
      have hsucc0 : (n / s + 1) * s = n / s * s + s := Nat.succ_mul _ s
      have hi0le : n / s * s ≤ n := by omega
      have hnlt : n < (n / s + 1) * s := by omega
      have hi0q : n / s < (bs.length + s - 1) / s := by
        have h1 : n / s ≤ (bs.length - 1) / s := Nat.div_le_div_right (by omega)
        have h2 : bs.length + s - 1 = (bs.length - 1) + s := by omega
        have h3 : (bs.length + s - 1) / s = (bs.length - 1) / s + 1 := by
          rw [h2]
          exact Nat.add_div_right _ hs
        omega
      have hq_split : List.range ((bs.length + s - 1) / s) =
          List.range (n / s + 1) ++
          List.range' (n / s + 1) ((bs.length + s - 1) / s - (n / s + 1)) := by
        have happ := range'_append_1 0 (n / s + 1)
          ((bs.length + s - 1) / s - (n / s + 1))
        rw [Nat.zero_add] at happ
        rw [show n / s + 1 + ((bs.length + s - 1) / s - (n / s + 1)) =
          (bs.length + s - 1) / s from by omega] at happ
        rw [List.range_eq_range', ← happ, ← List.range_eq_range']
      have hz : (List.range (n / s)).filter
          (fun i => decide (n < min ((i + 1) * s) bs.length)) = [] := by
        rw [List.filter_eq_nil_iff]
        intro i hi
        rw [List.mem_range] at hi
        simp only [decide_eq_true_eq]
        have hsucci : (i + 1) * s = i * s + s := Nat.succ_mul i s
        have hle : (i + 1) * s ≤ n / s * s := Nat.mul_le_mul_right s (by omega)
        omega
      have hone : [n / s].filter
          (fun i => decide (n < min ((i + 1) * s) bs.length)) = [n / s] := by
        rw [List.filter_cons_of_pos (by simp; omega)]
        rfl
      have hfilhead : (List.range (n / s + 1)).filter
          (fun i => decide (n < min ((i + 1) * s) bs.length)) = [n / s] := by
        rw [List.range_succ, List.filter_append, hz, hone]
        rfl
      rw [hq_split, List.filter_append, hfilhead]
      simp only [List.map_append, List.flatten_append, List.map_cons, List.map_nil,
        List.flatten_cons, List.flatten_nil, List.append_nil]
      rw [Nat.max_eq_right hi0le]
      rw [show min ((n / s + 1) * s) bs.length - n =
        (min ((n / s + 1) * s) bs.length - n - 1) + 1 from by omega,
        List.range'_succ n _ 1]
      simp only [List.map_cons]
      show some (blkAt bs n) = bs.get? n
      exact (get?_blkAt_self bs n hnm).symm
    · have hfil : (List.range ((bs.length + s - 1) / s)).filter
          (fun i => decide (n < min ((i + 1) * s) bs.length)) = [] := by
        rw [List.filter_eq_nil_iff]
        intro i hi
        simp only [decide_eq_true_eq]
        omega
      rw [hfil]
      rw [List.get?_eq_none.mpr (by omega)]
      rfl

end FileBlockchain

/-! ### Claim C8: get_block_by_number semantics -/

open FileBlockchain in
/-- C8: `get_block_by_number` returns the cached block when the number is
in the blocks LRU, otherwise the first block yielded by
`yield_blocks_from` (which skips chunk files whose parsed end is below the
number and starts emission at `max(chunk_start, n)`); on a chain store it
returns exactly the stored block of that number, and `none` when no stored
block has it. -/
theorem claim_c8_get_block_by_number (s : Nat) (bs : List Blk) (cache : BlkCache) (n : Nat)
    (hs : 0 < s) (hseq : SeqNumbered bs) (hcoh : CacheCoherent bs cache) :
    (∀ b, cacheGet cache n = some b →
      get_block_by_number (chain_storage s bs) cache n = some b) ∧
    (cacheGet cache n = none →
      get_block_by_number (chain_storage s bs) cache n =
        match yield_blocks_from (chain_storage s bs) cache n with
        | none => none
        | some r => r.1.head?) ∧
    get_block_by_number (chain_storage s bs) cache n = bs.get? n := by
  refine ⟨?_, ?_, get_block_by_number_chain s bs cache n hs hseq hcoh⟩
  · intro b hb
    unfold get_block_by_number
    rw [hb]
  · intro hb
    unfold get_block_by_number
    rw [hb]
    cases yield_blocks_from (chain_storage s bs) cache n with
    | none => rfl
    | some r => rfl

open FileBlockchain in
/-- C8 witness: a store holding blocks 0..3 (chunk size 2), empty cache;
block number 999 is absent, and the lookup returns `none`. -/
theorem claim_c8_get_block_by_number_witness :
    (0 : Nat) < 2 ∧
    SeqNumbered [⟨0, 10⟩, ⟨1, 11⟩, ⟨2, 12⟩, ⟨3, 13⟩] ∧
    CacheCoherent [⟨0, 10⟩, ⟨1, 11⟩, ⟨2, 12⟩, ⟨3, 13⟩] [] ∧
    get_block_by_number (chain_storage 2 [⟨0, 10⟩, ⟨1, 11⟩, ⟨2, 12⟩, ⟨3, 13⟩]) [] 999 =
      ([⟨0, 10⟩, ⟨1, 11⟩, ⟨2, 12⟩, ⟨3, 13⟩] : List Blk).get? 999 :=
  ⟨by decide, by unfold SeqNumbered; decide, by unfold CacheCoherent; decide,
    (claim_c8_get_block_by_number 2 [⟨0, 10⟩, ⟨1, 11⟩, ⟨2, 12⟩, ⟨3, 13⟩] [] 999
      (by decide) (by unfold SeqNumbered; decide)
      (by unfold CacheCoherent; decide)).2.2⟩

/-! ### Claim C10: yield_nodes dedup lemmas -/

namespace NetworkMixin

theorem yield_nodes_go_eq_dedup (xs : List (String × Models.AccountState)) :
    ∀ known : List String,
    yield_nodes_go known xs = (dedupFirst known (nodeBearing xs)).map Prod.snd := by
  induction xs with
  | nil => intro known; rfl
  | cons e rest ih =>
    intro known
    obtain ⟨a, st⟩ := e
    cases hnd : st.node with
    | none =>
      have hstep : yield_nodes_go known ((a, st) :: rest) = yield_nodes_go known rest := by
        show (match st.node with
          | none => yield_nodes_go known rest
          | some node =>
            if a ∈ known then yield_nodes_go known rest
            else node :: yield_nodes_go (a :: known) rest) = _
        rw [hnd]
      have hnb : nodeBearing ((a, st) :: rest) = nodeBearing rest := by
        unfold nodeBearing
        rw [List.filterMap_cons]
        simp only [hnd, Option.map_none']
      rw [hstep, hnb]
      exact ih known
    | some nd =>
      have hstep : yield_nodes_go known ((a, st) :: rest) =
          if a ∈ known then yield_nodes_go known rest
          else nd :: yield_nodes_go (a :: known) rest := by
        show (match st.node with
          | none => yield_nodes_go known rest
          | some node =>
            if a ∈ known then yield_nodes_go known rest
            else node :: yield_nodes_go (a :: known) rest) = _
        rw [hnd]
      have hnb : nodeBearing ((a, st) :: rest) = (a, nd) :: nodeBearing rest := by
        unfold nodeBearing
        rw [List.filterMap_cons]
        simp only [hnd, Option.map_some']
      rw [hstep, hnb]
      by_cases hk : a ∈ known
      · rw [if_pos hk]
        have hd : dedupFirst known ((a, nd) :: nodeBearing rest) =
            dedupFirst known (nodeBearing rest) := by
          show (if a ∈ known then dedupFirst known (nodeBearing rest)
            else (a, nd) :: dedupFirst (a :: known) (nodeBearing rest)) = _
          rw [if_pos hk]
        rw [hd]
        exact ih known
      · rw [if_neg hk]
        have hd : dedupFirst known ((a, nd) :: nodeBearing rest) =
            (a, nd) :: dedupFirst (a :: known) (nodeBearing rest) := by
          show (if a ∈ known then dedupFirst known (nodeBearing rest)
            else (a, nd) :: dedupFirst (a :: known) (nodeBearing rest)) = _
          rw [if_neg hk]
        rw [hd, List.map_cons]
        exact congrArg (List.cons nd) (ih (a :: known))

theorem dedupFirst_keys_fresh (l : List (String × Models.Node)) :
    ∀ seen : List String,
    ((dedupFirst seen l).map Prod.fst).Nodup ∧
    ∀ k ∈ (dedupFirst seen l).map Prod.fst, k ∉ seen := by
  induction l with
  | nil => intro seen; exact ⟨List.nodup_nil, by intro k hk; cases hk⟩
  | cons e rest ih =>
    intro seen
    obtain ⟨a, nd⟩ := e
    by_cases hk : a ∈ seen
    · have hstep : dedupFirst seen ((a, nd) :: rest) = dedupFirst seen rest := by
        show (if a ∈ seen then dedupFirst seen rest
          else (a, nd) :: dedupFirst (a :: seen) rest) = dedupFirst seen rest
        rw [if_pos hk]
      rw [hstep]
      exact ih seen
    · have hstep : dedupFirst seen ((a, nd) :: rest) =
          (a, nd) :: dedupFirst (a :: seen) rest := by
        show (if a ∈ seen then dedupFirst seen rest
          else (a, nd) :: dedupFirst (a :: seen) rest) =
          (a, nd) :: dedupFirst (a :: seen) rest
        rw [if_neg hk]
      rw [hstep]
      obtain ⟨ihn, ihf⟩ := ih (a :: seen)
      constructor
      · rw [List.map_cons, List.nodup_cons]
        refine ⟨?_, ihn⟩
        intro hmem
        exact (ihf a hmem) (List.mem_cons_self a seen)
      · intro k hkmem
        rw [List.map_cons, List.mem_cons] at hkmem
        rcases hkmem with rfl | hkmem
        · exact hk
        · intro hks
          exact (ihf k hkmem) (List.mem_cons_of_mem a hks)

theorem dedupFirst_find? (l : List (String × Models.Node)) :
    ∀ (seen : List String) (k : String) (v : Models.Node),
    (k, v) ∈ dedupFirst seen l →
    k ∉ seen ∧ l.find? (fun e => e.1 == k) = some (k, v) := by
  induction l with
  | nil => intro seen k v hmem; cases hmem
  | cons e rest ih =>
    intro seen k v hmem
    obtain ⟨a, nd⟩ := e
    by_cases hk : a ∈ seen
    · have hstep : dedupFirst seen ((a, nd) :: rest) = dedupFirst seen rest := by
        show (if a ∈ seen then dedupFirst seen rest
          else (a, nd) :: dedupFirst (a :: seen) rest) = dedupFirst seen rest
        rw [if_pos hk]
      rw [hstep] at hmem
      obtain ⟨hks, hfind⟩ := ih seen k v hmem
      refine ⟨hks, ?_⟩
      have hne : ¬ ((fun e : String × Models.Node => e.1 == k) (a, nd) = true) := by
        simp only [beq_iff_eq]
        intro h
        exact hks (h ▸ hk)
      rw [@List.find?_cons_of_neg _ (fun e : String × _ => e.1 == k) (a, nd) rest hne]
      exact hfind
    · have hstep : dedupFirst seen ((a, nd) :: rest) =
          (a, nd) :: dedupFirst (a :: seen) rest := by
        show (if a ∈ seen then dedupFirst seen rest
          else (a, nd) :: dedupFirst (a :: seen) rest) =
          (a, nd) :: dedupFirst (a :: seen) rest
        rw [if_neg hk]
      rw [hstep, List.mem_cons] at hmem
      rcases hmem with heq | hmem
      · injection heq with h1 h2
        subst h1
        subst h2
        refine ⟨hk, ?_⟩
        rw [List.find?_cons_of_pos _ (by simp)]
      · obtain ⟨hks, hfind⟩ := ih (a :: seen) k v hmem
        have hka : k ≠ a := fun h => hks (h ▸ List.mem_cons_self a seen)
        refine ⟨fun h => hks (List.mem_cons_of_mem a h), ?_⟩
        have hne : ¬ ((fun e : String × Models.Node => e.1 == k) (a, nd) = true) := by
          simp only [beq_iff_eq]
          intro h
          exact hka h.symm
        rw [@List.find?_cons_of_neg _ (fun e : String × _ => e.1 == k) (a, nd) rest hne]
        exact hfind

end NetworkMixin

namespace NetworkMixin

theorem dedupFirst_complete (l : List (String × Models.Node)) :
    ∀ seen : List String, ∀ e ∈ l,
    e.1 ∈ seen ∨ e.1 ∈ (dedupFirst seen l).map Prod.fst := by
  induction l with
  | nil => intro seen e he; cases he
  | cons p rest ih =>
    intro seen e he
    obtain ⟨a, nd⟩ := p
    by_cases hk : a ∈ seen
    · have hstep : dedupFirst seen ((a, nd) :: rest) = dedupFirst seen rest := by
        show (if a ∈ seen then dedupFirst seen rest
          else (a, nd) :: dedupFirst (a :: seen) rest) = dedupFirst seen rest
        rw [if_pos hk]
      rw [hstep]
      rcases List.mem_cons.mp he with rfl | he'
      · exact Or.inl hk
      · exact ih seen e he'
    · have hstep : dedupFirst seen ((a, nd) :: rest) =
          (a, nd) :: dedupFirst (a :: seen) rest := by
        show (if a ∈ seen then dedupFirst seen rest
          else (a, nd) :: dedupFirst (a :: seen) rest) =
          (a, nd) :: dedupFirst (a :: seen) rest
        rw [if_neg hk]
      rw [hstep, List.map_cons]
      rcases List.mem_cons.mp he with rfl | he'
      · exact Or.inr (List.mem_cons_self _ _)
      · rcases ih (a :: seen) e he' with hs | hd
        · rcases List.mem_cons.mp hs with heq | hs'
          · exact Or.inr (heq ▸ List.mem_cons_self _ _)
          · exact Or.inl hs'
        · exact Or.inr (List.mem_cons_of_mem _ hd)

end NetworkMixin

open NetworkMixin in
/-- C10: for every account-state stream (the materialization of
`yield_account_states` at any block number), `yield_nodes` yields exactly
the nodes of the first-occurrence-per-account deduplication of the
node-bearing entries: account states without a node are skipped entirely,
each yielded account is unique, every deduplicated entry is the first
node-bearing entry of its account in stream order, and every account with
a node-bearing state is represented. -/
theorem claim_c10_yield_nodes_dedup (xs : List (String × Models.AccountState)) :
    yield_nodes xs = (dedupFirst [] (nodeBearing xs)).map Prod.snd ∧
    ((dedupFirst [] (nodeBearing xs)).map Prod.fst).Nodup ∧
    (∀ k v, (k, v) ∈ dedupFirst [] (nodeBearing xs) →
      (nodeBearing xs).find? (fun e => e.1 == k) = some (k, v)) ∧
    (∀ e ∈ nodeBearing xs, e.1 ∈ (dedupFirst [] (nodeBearing xs)).map Prod.fst) := by
  refine ⟨yield_nodes_go_eq_dedup xs [], (dedupFirst_keys_fresh (nodeBearing xs) []).1,
    ?_, ?_⟩
  · intro k v hmem
    exact (dedupFirst_find? (nodeBearing xs) [] k v hmem).2
  · intro e he
    rcases dedupFirst_complete (nodeBearing xs) [] e he with hs | hd
    · cases hs
    · exact hd

/-! ### Claim C7: serialization round-trips -/

namespace Models

theorem accountState_roundtrip (st : AccountState) :
    AccountState.deserialize_from_dict st.serialize_to_dict = st := by
  obtain ⟨b, bl, nd, pv⟩ := st
  cases nd <;> cases pv <;> rfl

theorem block_roundtrip (b : Block) :
    Block.deserialize_from_dict b.serialize_to_dict = b := by
  obtain ⟨n, t, r, uas, h, sg⟩ := b
  simp only [Block.serialize_to_dict, Block.deserialize_from_dict, Block.mk.injEq,
    true_and, and_true]
  rw [List.map_map]
  conv_rhs => rw [← List.map_id uas]
  refine List.map_congr_left ?_
  intro e he
  show (e.1, AccountState.deserialize_from_dict (AccountState.serialize_to_dict e.2)) =
    id e
  rw [accountState_roundtrip]
  rfl

end Models

namespace Models

theorem message_entry_roundtrip (acc : String) (st : AccountState)
    (h1 : st.balance_lock ≠ some acc)
    (h2 : ∀ nd, st.node = some nd → nd.identifier = some acc) :
    (let d := st.serialize_to_dict
     let d₁ := if d.balance_lock = some acc then { d with balance_lock := none } else d
     let d₂ := match d₁.node with
       | none => d₁
       | some nd => { d₁ with node := some { nd with identifier := none } }
     let s := AccountState.deserialize_from_dict d₂
     let s' := match s.node with
       | some nd =>
         if nd.identifier = none then
           { s with node := some { nd with identifier := some acc } }
         else s
       | none => s
     s') = st := by
  obtain ⟨bal, bl, ndo, pvo⟩ := st
  have h1' : ¬ (bl = some acc) := h1
  cases ndo with
  | none =>
    cases pvo <;>
      simp [AccountState.serialize_to_dict, AccountState.deserialize_from_dict,
        Node.serialize_to_dict, Node.deserialize_from_dict,
        PrimaryValidatorSchedule.serialize_to_dict,
        PrimaryValidatorSchedule.deserialize_from_dict, h1']
  | some nd =>
    obtain ⟨ido, addrs, fee, fa⟩ := nd
    have hid : ido = some acc := by
      have := h2 ⟨ido, addrs, fee, fa⟩ rfl
      exact this
    subst hid
    cases pvo <;>
      simp [AccountState.serialize_to_dict, AccountState.deserialize_from_dict,
        Node.serialize_to_dict, Node.deserialize_from_dict,
        PrimaryValidatorSchedule.serialize_to_dict,
        PrimaryValidatorSchedule.deserialize_from_dict, h1']

end Models

open Models in
/-- C7 counterexample: an account state whose `balance_lock` equals its
account number has the lock deleted by `serialize_to_dict` and never
restored by `deserialize_from_dict`, so the round-trip loses it. -/
theorem claim_c7_counterexample :
    BlockchainStateMessage.deserialize_from_dict
      (BlockchainStateMessage.serialize_to_dict
        ⟨[("aa", ⟨some 5, some "aa", none, none⟩)],
          some 1, some "lid", some 2, some "nid"⟩) ≠
      ⟨[("aa", ⟨some 5, some "aa", none, none⟩)],
        some 1, some "lid", some 2, some "nid"⟩ := by
  decide

open Models in
/-- C7 (amended): decoding an encoding is the identity for every `Block`
(generic field-by-field serialization), and for every
`BlockchainStateMessage` whose account states keep `balance_lock`
different from their own account number and whose attached nodes carry
the account number as identifier; outside that domain the
`serialize_to_dict` fixups (balance-lock deletion, node-identifier
popping) lose information, as the counterexample shows. -/
theorem claim_c7_serialization_roundtrip (b : Block) (m : BlockchainStateMessage)
    (hm : ∀ e ∈ m.account_states, e.2.balance_lock ≠ some e.1 ∧
      ∀ nd, e.2.node = some nd → nd.identifier = some e.1) :
    Block.deserialize_from_dict b.serialize_to_dict = b ∧
    BlockchainStateMessage.deserialize_from_dict m.serialize_to_dict = m := by
  refine ⟨block_roundtrip b, ?_⟩
  obtain ⟨uas, l1, l2, l3, l4⟩ := m
  simp only [BlockchainStateMessage.serialize_to_dict,
    BlockchainStateMessage.deserialize_from_dict, BlockchainStateMessage.mk.injEq,
    and_true, true_and]
  rw [List.map_map]
  conv_rhs => rw [← List.map_id uas]
  refine List.map_congr_left ?_
  intro e he
  obtain ⟨hh1, hh2⟩ := hm e he
  exact congrArg (fun x => (e.1, x)) (message_entry_roundtrip e.1 e.2 hh1 hh2)

open Models in
/-- C7 witness: a block carrying an account state whose lock equals its
account (harmless on the generic path), and a message whose single
account state satisfies the amended conditions. -/
theorem claim_c7_serialization_roundtrip_witness :
    (∀ e ∈ ([("aa", ⟨some 5, some "bb", some ⟨some "aa", ["u"], 3, some "fa"⟩,
        some ⟨0, 7⟩⟩)] : List (String × AccountState)),
      e.2.balance_lock ≠ some e.1 ∧
      ∀ nd, e.2.node = some nd → nd.identifier = some e.1) ∧
    (Block.deserialize_from_dict
      (Block.serialize_to_dict
        ⟨0, 1, 2, [("aa", ⟨some 5, some "aa", none, none⟩)], some "h", some "sg"⟩) =
      ⟨0, 1, 2, [("aa", ⟨some 5, some "aa", none, none⟩)], some "h", some "sg"⟩ ∧
    BlockchainStateMessage.deserialize_from_dict
      (BlockchainStateMessage.serialize_to_dict
        ⟨[("aa", ⟨some 5, some "bb", some ⟨some "aa", ["u"], 3, some "fa"⟩,
          some ⟨0, 7⟩⟩)], some 1, some "lid", some 2, some "nid"⟩) =
      ⟨[("aa", ⟨some 5, some "bb", some ⟨some "aa", ["u"], 3, some "fa"⟩,
        some ⟨0, 7⟩⟩)], some 1, some "lid", some 2, some "nid"⟩) :=
  ⟨fun e he => by
      rw [List.mem_singleton] at he
      subst he
      refine ⟨by decide, fun nd h => ?_⟩
      have hnd : nd = ⟨some "aa", ["u"], 3, some "fa"⟩ := by
        injection h with h'
        exact h'.symm
      rw [hnd],
    claim_c7_serialization_roundtrip
      ⟨0, 1, 2, [("aa", ⟨some 5, some "aa", none, none⟩)], some "h", some "sg"⟩
      ⟨[("aa", ⟨some 5, some "bb", some ⟨some "aa", ["u"], 3, some "fa"⟩,
        some ⟨0, 7⟩⟩)], some 1, some "lid", some 2, some "nid"⟩
      (fun e he => by
        rw [List.mem_singleton] at he
        subst he
        refine ⟨by decide, fun nd h => ?_⟩
        have hnd : nd = ⟨some "aa", ["u"], 3, some "fa"⟩ := by
          injection h with h'
          exact h'.symm
        rw [hnd])⟩
